import Mathlib

/-!
# Verification of the `BootstrapTreeview` / `Dropdown` widgets

A shallow embedding of the tree-path matching logic of
`widgetastic_patternfly/__init__.py` (classes `BootstrapTreeview` and
`CheckableBootstrapTreeview`) and of `Dropdown.item_select` from
`widgetastic_patternfly/dropdowns.py`.

The widget operates over a live DOM: the bootstrap treeview renders the whole
tree as one flat `./ul` whose `li` elements appear in document order, each
carrying a `data-nodeid` attribute, a number of `span.indent` markers, an
optional `span.expand-icon` (with `fa-angle-down` when expanded), an optional
`span.check-icon` (with `fa-check-square-o` when checked), a text content and
a `title` attribute.  We model this flat element list directly: a `TreeView` is
the list of `li` nodes in document order.  A browser `WebElement` handle is
modelled by the node value itself for transient iteration (queries and
validation happen without interleaved mutation), and by its `data-nodeid` for
operations that re-locate the element (`expand_node`, `collapse_node`,
`get_item_by_nodeid`), exactly as the source does.

Browser-side asynchrony (clicking the expand arrow triggers lazy loading that
is polled with `wait_for`) is modelled by the per-node oracle fields
`willExpand` / `willCollapse`: they record whether the DOM, once settled,
reaches the target state after the arrow click.  `wait_for` is modelled as
observing that settled state: it succeeds when the predicate holds there and
raises a timeout otherwise.  The `fa-spinner` loading indicator is absent in
the settled state, so the "not loading" wait always succeeds.
-/

/-- Strings are modelled as explicit character lists, so that the XPath
`starts-with` / `contains` predicates used by the widget's locators can be
reasoned about directly. -/
abbrev Str := List Char

/-- XPath `starts-with(a, b)` / Python `str.startswith`: prefix test. -/
def strStarts : Str → Str → Bool
  | [], _ => true
  | _ :: _, [] => false
  | a :: as, b :: bs => a == b && strStarts as bs

/-- XPath `contains(hay, needle)` (substring test). -/
def substrB : Str → Str → Bool
  | n, [] => n == []
  | n, c :: rest => strStarts n (c :: rest) || substrB n rest

/-! ## A model of compiled `re` patterns

`BootstrapTreeview.validate_node` accepts compiled regular expressions as
match steps and uses `matcher.match(text)`, i.e. Python's match-from-start
semantics: the pattern must match some *prefix* of the text (the whole text
need not be consumed).  We model the external `re` engine with a classical
regular-expression AST and Brzozowski derivatives; `reMatchList r s` holds
iff some (possibly empty) prefix of `s` is in the language of `r`, which is
exactly `re.match` viewed as a boolean. -/

inductive Regexp where
  | emp : Regexp
  | eps : Regexp
  | chr : Char → Regexp
  | cat : Regexp → Regexp → Regexp
  | alt : Regexp → Regexp → Regexp
  | star : Regexp → Regexp
deriving DecidableEq

/-- Does the language of `r` contain the empty string? -/
def Regexp.nullable : Regexp → Bool
  | .emp => false
  | .eps => true
  | .chr _ => false
  | .cat a b => a.nullable && b.nullable
  | .alt a b => a.nullable || b.nullable
  | .star _ => true

/-- Brzozowski derivative of `r` by the character `x`. -/
def Regexp.deriv : Regexp → Char → Regexp
  | .emp, _ => .emp
  | .eps, _ => .emp
  | .chr c, x => if x == c then .eps else .emp
  | .cat a b, x =>
      if a.nullable then .alt (.cat (a.deriv x) b) (b.deriv x) else .cat (a.deriv x) b
  | .alt a b, x => .alt (a.deriv x) (b.deriv x)
  | .star a, x => .cat (a.deriv x) (.star a)

/-- `re.match` as a boolean: some prefix of the text is in the language.
After consuming each character we check nullability of the residual. -/
def reMatchList : Regexp → Str → Bool
  | r, [] => r.nullable
  | r, c :: cs => r.nullable || reMatchList (r.deriv c) cs

/-- The compilation of a plain text into a pattern matching exactly it.
Note that under `re.match` a leading `^` anchor is redundant (matching
already starts at position 0), so the pattern `^Child` compiles to the
same automaton as the literal pattern `Child`. -/
def litPattern : Str → Regexp
  | [] => .eps
  | c :: cs => .cat (.chr c) (litPattern cs)

/-- A compiled pattern as the widget receives it: the original pattern text
(Python's `Pattern.pattern`, used only when rendering steps in error
messages) together with its compiled automaton. -/
structure RePattern where
  source : Str
  re : Regexp
deriving DecidableEq

/-! ## Match steps

A path element is a plain string (exact text equality), a compiled regular
expression (`match`-from-start), or a 2-tuple whose first element is an image
name and whose second element is the string/regex.  `_process_step` splits a
tuple into `(image, step)` and leaves plain steps with `image = None`; the
`Step` structure below is that already-split form.  (`_process_step` also
coerces `VersionPick` objects — an external version-dispatch helper — and
`str()`-coerces non-string scalars; both concern only the input encoding of
callers and are outside this model.) -/

inductive Matcher where
  | lit : Str → Matcher
  | regex : RePattern → Matcher
deriving DecidableEq

structure Step where
  image : Option Str
  matcher : Matcher
deriving DecidableEq

/-! ## The tree state -/

/-- One `li` element of the rendered treeview, with every attribute the
widget reads.  `willExpand` / `willCollapse` are the browser-side oracle for
the settled outcome of clicking the expand arrow (see the module comment). -/
structure TNode where
  nodeid : Str
  text : Str
  title : Str
  indents : Nat
  expandable : Bool
  expanded : Bool
  image : Option Str
  checkable : Bool
  checked : Bool
  willExpand : Bool
  willCollapse : Bool
deriving DecidableEq

/-- The treeview: its `tree_id` and the flat `./ul/li` element list in
document order. -/
structure TreeView where
  treeId : Str
  nodes : List TNode
deriving DecidableEq

/-- `data-nodeid` attribute (`get_nodeid`). -/
def get_nodeid (n : TNode) : Str := n.nodeid

/-- Number of `span.indent` markers (`indents`). -/
def indents (n : TNode) : Nat := n.indents

/-- `IS_EXPANDABLE`: the node has a `span.expand-icon` (`is_expandable`). -/
def is_expandable (n : TNode) : Bool := n.expandable

/-- `IS_EXPANDED`: the expand icon carries `fa-angle-down` (`is_expanded`). -/
def is_expanded (n : TNode) : Bool := n.expanded

/-- `IS_LOADING`: the expand icon carries `fa-spinner`.  In the settled DOM
state that the model represents the spinner is gone. -/
def is_loading (_ : TNode) : Bool := false

/-- `is_collapsed` is the negation of `is_expanded`. -/
def is_collapsed (n : TNode) : Bool := !is_expanded n

/-- `image_getter`: the image name parsed from the node's image/icon span
(`none` when the span is missing or unparseable). -/
def image_getter (n : TNode) : Option Str := n.image

/-- `ROOT_ITEMS`: the `li` elements that have no `span.indent` marker, i.e.
the root-level nodes, in document order. -/
def root_items (t : TreeView) : List TNode :=
  t.nodes.filter (fun n => n.indents == 0)

/-- `root_item_count`. -/
def root_item_count (t : TreeView) : Nat := (root_items t).length

/-- `root_item`: when exactly one root-level node exists, the *first* `li`
of the tree (`ROOT_ITEM = './ul/li[1]'`); otherwise `None`. -/
def root_item (t : TreeView) : Option TNode :=
  if root_item_count t = 1 then t.nodes.head? else none

/-- Locating an element by `data-nodeid` (`ITEM_BY_NODEID`, first match in
document order). -/
def lookupNode (t : TreeView) (nid : Str) : Option TNode :=
  t.nodes.find? (fun n => n.nodeid == nid)

/-- The filter of `CHILD_ITEMS`: `starts-with(@data-nodeid, id)`, a different
nodeid, and exactly `ind + 1` indent markers. -/
def childNodes (t : TreeView) (nid : Str) (ind : Nat) : List TNode :=
  t.nodes.filter (fun n =>
    strStarts nid n.nodeid && !(n.nodeid == nid) && n.indents == ind + 1)

/-- `child_items`: all direct-child candidates of the given item (via
`CHILD_ITEMS`), or the root items when the item is `None`. -/
def child_items (t : TreeView) (item : Option TNode) : List TNode :=
  match item with
  | some n => childNodes t (get_nodeid n) (indents n)
  | none => root_items t

/-- `child_items_with_text`: as `child_items` but additionally filtered by
`contains(@title, text) or contains(normalize-space(.), text)` (via
`CHILD_ITEMS_TEXT`, resp. `ROOT_ITEMS_WITH_TEXT` which filters on the text
content only). -/
def child_items_with_text (t : TreeView) (item : Option TNode) (text : Str) : List TNode :=
  match item with
  | some n =>
      (childNodes t (get_nodeid n) (indents n)).filter
        (fun c => substrB text c.title || substrB text c.text)
  | none => (root_items t).filter (fun c => substrB text c.text)

/-! ## Errors

The error taxonomy visible to the tree widget's callers.  `CandidateNotFound`
carries the structured `{message, path, cause}` payload the source builds
(the `path` entry, a Python list in the source, is stored rendered through
`pretty_path`).  `indexError` models the `IndexError` Python raises for an
out-of-range list index (`path[0]` on an empty path, `steps_tried[-2]` on a
one-element list); `timedOut` models `wait_for`'s `TimedOutError`;
`typeErr` models `TypeError`. -/

inductive WErr where
  | candidateNotFound (message : Str) (path : Str) (cause : Str)
  | timedOut
  | indexError
  | typeErr (message : Str)
deriving DecidableEq

/-! ## Error-message rendering (`_repr_step`, `pretty_path`) -/

/-- The ASCII single-quote character, written numerically so that quoting in
rendered messages does not depend on character-literal escapes. -/
def squote : Char := Char.ofNat 39

/-- `_repr_step`: a literal step renders as itself; a compiled pattern
renders as `r'...'` (the `re.sub` in the source strips the first character
of `repr(pattern)` only when it is not already a quote, and Python's `repr`
of a string starts with a quote, so the quoted form is kept); an image-paired
step is suffixed with `[image]`. -/
def reprStep (image : Option Str) (m : Matcher) : Str :=
  let stepRepr : Str :=
    match m with
    | .lit s => s
    | .regex p => 'r' :: squote :: (p.source ++ [squote])
  match image with
  | none => stepRepr
  | some img => stepRepr ++ '[' :: (img ++ [']'])

/-- `pretty_path`: `/`-joined rendering of the steps. -/
def pretty_path (path : List Step) : Str :=
  List.intercalate ['/'] (path.map (fun s => reprStep s.image s.matcher))

/-- The message of every `CandidateNotFound` raised by `expand_path`:
`'Could not find the item {pretty_path(steps_tried)} in Bootstrap tree
{tree_id}'`. -/
def cnfMessage (treeId : Str) (tried : List Step) : Str :=
  "Could not find the item ".data ++ pretty_path tried
    ++ " in Bootstrap tree ".data ++ treeId

/-- Cause when the singular root fails validation against the first step. -/
def rootMismatchCause (s : Step) : Str :=
  "Root node did not match ".data ++ reprStep s.image s.matcher

/-- Cause when an intermediate node cannot be expanded. -/
def cannotExpandCause (s : Step) : Str :=
  "Could not expand the ".data ++ reprStep s.image s.matcher ++ " node".data

/-- Cause when no child matched the step: names `steps_tried[-2]`, i.e. the
step that resolved the *parent* node. -/
def notFoundInCause (prev : Step) : Str :=
  "Was not found in ".data ++ reprStep prev.image prev.matcher

/-- The `CandidateNotFound` of `get_item_by_nodeid` when no element carries
the nodeid: `{'message': 'Could not find the item with nodeid {} in
Bootstrap tree {}', 'path': '', 'cause': ''}`. -/
def nodeidNotFoundErr (treeId : Str) (nid : Str) : WErr :=
  .candidateNotFound
    ("Could not find the item with nodeid ".data ++ nid
      ++ " in Bootstrap tree ".data ++ treeId)
    [] []

/-! ## Node state changes -/

/-- The DOM effect of toggling a node's expansion state: the elements
carrying the nodeid get their `fa-angle-down` marker set/cleared.  (With the
unique nodeids of a real rendering exactly one element is affected.) -/
def setExpanded (t : TreeView) (nid : Str) (b : Bool) : TreeView :=
  { t with nodes := t.nodes.map (fun n =>
      if n.nodeid == nid then { n with expanded := b } else n) }

/-- The DOM effect of toggling a node's checkbox. -/
def setChecked (t : TreeView) (nid : Str) (b : Bool) : TreeView :=
  { t with nodes := t.nodes.map (fun n =>
      if n.nodeid == nid then { n with checked := b } else n) }

/-- `get_item_by_nodeid`: locate the element, raising `CandidateNotFound`
when it is absent. -/
def get_item_by_nodeid (t : TreeView) (nid : Str) : Except WErr TNode :=
  match lookupNode t nid with
  | some n => .ok n
  | none => .error (nodeidNotFoundErr t.treeId nid)

/-- `expand_node(nodeid)`: returns `False` without touching the DOM when the
node is not expandable; otherwise clicks the expand arrow when the node is
collapsed and waits (with timeout) for the loading spinner to clear and the
expanded marker to appear, returning `True` once expanded. -/
def expand_node (t : TreeView) (nid : Str) : Except WErr Bool × TreeView :=
  match get_item_by_nodeid t nid with
  | .error e => (.error e, t)
  | .ok node =>
    if !is_expandable node then (.ok false, t)
    else if is_collapsed node then
      -- click the arrow; the settled DOM is expanded iff the lazy load
      -- succeeds (`willExpand`)
      let t1 := setExpanded t nid node.willExpand
      -- wait_for(not is_loading): holds in the settled state
      -- wait_for(is_expanded): re-locates the element on every poll
      match get_item_by_nodeid t1 nid with
      | .error e => (.error e, t1)
      | .ok n1 => if is_expanded n1 then (.ok true, t1) else (.error .timedOut, t1)
    else (.ok true, t)

/-- `collapse_node(nodeid)`: the symmetric operation for the collapsed
target state. -/
def collapse_node (t : TreeView) (nid : Str) : Except WErr Bool × TreeView :=
  match get_item_by_nodeid t nid with
  | .error e => (.error e, t)
  | .ok node =>
    if !is_expandable node then (.ok false, t)
    else if is_expanded node then
      let t1 := setExpanded t nid (!node.willCollapse)
      match get_item_by_nodeid t1 nid with
      | .error e => (.error e, t1)
      | .ok n1 => if is_collapsed n1 then (.ok true, t1) else (.error .timedOut, t1)
    else (.ok true, t)

/-! ## Path matching -/

/-- `validate_node`: a compiled-pattern matcher uses `matcher.match(text)`
(match-from-start), any other matcher uses exact equality against the node
text; when an image constraint is present the node additionally matches only
if `image_getter` yields that image. -/
def validate_node (node : TNode) (matcher : Matcher) (image : Option Str) : Bool :=
  let text := node.text
  let matched :=
    match matcher with
    | .regex p => reMatchList p.re text
    | .lit s => s == text
  if !matched then false
  else
    match image with
    | some img => image_getter node == some img
    | none => true

/-- The expansion phase at the start of each `expand_path` loop iteration:
`if node is not None and not self.expand_node(self.get_nodeid(node)): raise
CandidateNotFound(...)`; an exception inside `expand_node` itself (timeout,
vanished element) propagates. -/
def expandCurrent (t : TreeView) (node : Option TNode) (step : Step)
    (pathRepr : Str) (tried' : List Step) : Except WErr Unit × TreeView :=
  match node with
  | some n =>
    match expand_node t (get_nodeid n) with
    | (.ok true, t1) => (.ok (), t1)
    | (.ok false, t1) =>
      (.error (.candidateNotFound (cnfMessage t1.treeId tried') pathRepr
        (cannotExpandCause step)), t1)
    | (.error e, t1) => (.error e, t1)
  | none => (.ok (), t)

/-- The `for step in path` loop of `expand_path`.  Arguments: current tree,
current node (`None` when starting among multiple roots), remaining steps,
the rendered `path` payload stored in raised errors (the loop variable
`path` in the source, constant during iteration), and `steps_tried`. -/
def expandSteps :
    TreeView → Option TNode → List Step → Str → List Step →
      Except WErr (Option TNode) × TreeView
  | t, node, [], _, _ => (.ok node, t)
  | t, node, step :: rest, pathRepr, tried =>
    let tried' := tried ++ [step]
    match expandCurrent t node step pathRepr tried' with
    | (.error e, t1) => (.error e, t1)
    | (.ok _, t1) =>
      let children : List TNode :=
        match step.matcher with
        | .lit s => child_items_with_text t1 node s
        | .regex _ => child_items t1 node
      match children.find? (fun c => validate_node c step.matcher step.image) with
      | some c => expandSteps t1 (some c) rest pathRepr tried'
      | none =>
        match tried.getLast? with
        | some prev =>
          (.error (.candidateNotFound (cnfMessage t1.treeId tried') pathRepr
            (notFoundInCause prev)), t1)
        | none =>
          -- `steps_tried[-2]` on a one-element list: IndexError
          (.error .indexError, t1)

/-- `expand_path(*path)`: when the tree has a singular root item, that item
is fetched and validated against the first step (raising `CandidateNotFound`
with a root-mismatch cause on failure) before the loop runs over the
remaining steps; otherwise every step is matched among the current level's
candidates starting from no current node.  Returns the leaf element. -/
def expand_path (t : TreeView) (path : List Step) :
    Except WErr (Option TNode) × TreeView :=
  match root_item t with
  | some rootN =>
    match path with
    | [] => (.error .indexError, t)   -- `path[0]` on an empty path
    | step :: rest =>
      if validate_node rootN step.matcher step.image then
        expandSteps t (some rootN) rest (pretty_path rest) [step]
      else
        (.error (.candidateNotFound (cnfMessage t.treeId [step]) (pretty_path rest)
          (rootMismatchCause step)), t)
  | none => expandSteps t none path (pretty_path path) []

/-- `has_path(*path)`: `True` on success, `False` when `expand_path` raised
`CandidateNotFound`; any other exception propagates. -/
def has_path (t : TreeView) (path : List Step) : Except WErr Bool × TreeView :=
  match expand_path t path with
  | (.ok _, t') => (.ok true, t')
  | (.error e, t') =>
    match e with
    | .candidateNotFound _ _ _ => (.ok false, t')
    | _ => (.error e, t')

/-! ## `CheckableBootstrapTreeview` -/

/-- `IS_CHECKABLE`: the node has a `span.check-icon` (`is_checkable`). -/
def is_checkable (n : TNode) : Bool := n.checkable

/-- `IS_CHECKED`: the check icon carries `fa-check-square-o` (`is_checked`). -/
def is_checked (n : TNode) : Bool := n.checked

/-- The `TypeError` message of `check_uncheck_node`. -/
def notCheckableMsg (treeId : Str) (path : List Step) : Str :=
  "Item with path ".data ++ pretty_path path ++ " in ".data ++ treeId
    ++ " is not checkable".data

/-- `check_uncheck_node`: resolve the leaf via `expand_path`, raise
`TypeError` when it is not checkable, click its checkbox only when the
current checked state differs from the requested one, and report whether a
change happened.  (A `None` leaf — only reachable through an empty path on a
multi-root tree — owns no check icon, so the checkable test fails.) -/
def check_uncheck_node (t : TreeView) (check : Bool) (path : List Step) :
    Except WErr Bool × TreeView :=
  match expand_path t path with
  | (.error e, t') => (.error e, t')
  | (.ok none, t') => (.error (.typeErr (notCheckableMsg t'.treeId path)), t')
  | (.ok (some leaf), t') =>
    if !is_checkable leaf then
      (.error (.typeErr (notCheckableMsg t'.treeId path)), t')
    else if is_checked leaf != check then
      (.ok true, setChecked t' (get_nodeid leaf) (!is_checked leaf))
    else
      (.ok false, t')

/-- `check_node`. -/
def check_node (t : TreeView) (path : List Step) : Except WErr Bool × TreeView :=
  check_uncheck_node t true path

/-- `uncheck_node`. -/
def uncheck_node (t : TreeView) (path : List Step) : Except WErr Bool × TreeView :=
  check_uncheck_node t false path

/-- `node_checked`: resolve the leaf via `expand_path`; `False` when the
leaf is not checkable, otherwise its checked state. -/
def node_checked (t : TreeView) (path : List Step) : Except WErr Bool × TreeView :=
  match expand_path t path with
  | (.error e, t') => (.error e, t')
  | (.ok none, t') => (.ok false, t')
  | (.ok (some leaf), t') =>
    if !is_checkable leaf then (.ok false, t')
    else (.ok (is_checked leaf), t')

/-! ## `read_contents`

The source recursion is bounded in practice by the depth of the rendered
tree (every recursive call descends to children with strictly more indent
markers), but nothing in an arbitrary node list enforces that, so the model
carries explicit fuel; running out of fuel is reported as `outOfFuel`, the
model's rendering of a non-terminating traversal.  Fuel is consumed once per
recursion step, so any fuel larger than the node count of the tree plus its
depth is sufficient for well-formed trees. -/

/-- The nested list-of-pairs structure `read_contents` produces: a leaf is
its text (or an `(image, text)` pair when `include_images` is set), a
non-leaf is the two-element list `[own representation, [children...]]`. -/
inductive Contents where
  | leafT : Str → Contents
  | leafP : Option Str → Str → Contents
  | branch : Contents → List Contents → Contents

/-- Fuel exhaustion marker (models divergence, not a source error). -/
inductive RErr where
  | outOfFuel
  | wrapped (e : WErr)
deriving DecidableEq

mutual

/-- `read_contents(nodeid, include_images, collapse_after_read)`.  With
`nodeid=None` and a singular root the call restarts from the root's nodeid;
with `nodeid=None` and no singular root, `get_item_by_nodeid(None)` finds no
element and raises its `CandidateNotFound`.  Otherwise: locate the item,
(try to) expand it, recursively read every direct child, collapse the item
again when `collapse_after_read` is set, and assemble the result. -/
def read_contents :
    Nat → TreeView → Option Str → Bool → Bool → Except RErr Contents × TreeView
  | 0, t, _, _, _ => (.error .outOfFuel, t)
  | fuel + 1, t, none, incl, col =>
    match root_item t with
    | some r => read_contents fuel t (some (get_nodeid r)) incl col
    | none => (.error (.wrapped (nodeidNotFoundErr t.treeId [])), t)
  | fuel + 1, t, some nid, incl, col =>
    match get_item_by_nodeid t nid with
    | .error e => (.error (.wrapped e), t)
    | .ok item =>
      match expand_node t nid with
      | (.error e, t1) => (.error (.wrapped e), t1)
      | (.ok _, t1) =>
        match read_children fuel t1 (childNodes t1 (get_nodeid item) (indents item)) incl col with
        | (.error e, t2) => (.error e, t2)
        | (.ok kids, t2) =>
          match (if col then collapse_node t2 nid else (.ok true, t2)) with
          | (.error e, t3) => (.error (.wrapped e), t3)
          | (.ok _, t3) =>
            -- the item's text and image are read live, but neither is ever
            -- mutated, so the fetched element's values coincide
            let this_item :=
              if incl then Contents.leafP (image_getter item) item.text
              else Contents.leafT item.text
            match kids with
            | [] => (.ok this_item, t3)
            | _ :: _ => (.ok (.branch this_item kids), t3)

/-- The `for child_item in self.child_items(item)` loop of `read_contents`,
reading each child in document order and threading the DOM state. -/
def read_children :
    Nat → TreeView → List TNode → Bool → Bool → Except RErr (List Contents) × TreeView
  | _, t, [], _, _ => (.ok [], t)
  | 0, t, _ :: _, _, _ => (.error .outOfFuel, t)
  | fuel + 1, t, c :: cs, incl, col =>
    match read_contents fuel t (some (get_nodeid c)) incl col with
    | (.error e, t') => (.error e, t')
    | (.ok v, t') =>
      match read_children fuel t' cs incl col with
      | (.error e, t'') => (.error e, t'')
      | (.ok vs, t'') => (.ok (v :: vs), t'')

end

/-! The set of nodeids a `read_contents` traversal visits, mirroring the
fuel discipline of `read_contents` exactly (children are enumerated by the
same `CHILD_ITEMS` query; the query result depends only on fields the
traversal never mutates, so computing it against the initial tree is
equivalent). -/

mutual

/-- Nodeids visited by `read_contents fuel t (some nid)`. -/
def subtreeN : Nat → TreeView → Str → List Str
  | 0, _, _ => []
  | fuel + 1, t, nid =>
    match lookupNode t nid with
    | none => [nid]
    | some item => nid :: subtreeList fuel t (childNodes t (get_nodeid item) (indents item))

/-- Nodeids visited by `read_children fuel t cs`. -/
def subtreeList : Nat → TreeView → List TNode → List Str
  | _, _, [] => []
  | 0, _, _ :: _ => []
  | fuel + 1, t, c :: cs =>
    subtreeN fuel t (get_nodeid c) ++ subtreeList fuel t cs

end

/-- Decidable equality for `Except` results, used to evaluate the model on
concrete inputs. -/
instance {ε α : Type} [DecidableEq ε] [DecidableEq α] : DecidableEq (Except ε α)
  | .ok a, .ok b =>
    if h : a = b then .isTrue (by rw [h]) else .isFalse (fun hh => by cases hh; exact h rfl)
  | .error a, .error b =>
    if h : a = b then .isTrue (by rw [h]) else .isFalse (fun hh => by cases hh; exact h rfl)
  | .ok _, .error _ => .isFalse (fun hh => by cases hh)
  | .error _, .ok _ => .isFalse (fun hh => by cases hh)

/-! ## `Dropdown` (`dropdowns.py`)

The dropdown's browser state: whether its root `div.dropdown` element is
present on the page at all, whether the toggle button lacks the `disabled`
class, whether the root carries the `open` class, and the `./ul/li/a` item
elements (name and enabled state, in document order).  Clicking a dropdown
item runs arbitrary page logic (navigation may even remove the dropdown),
modelled by an explicit page-reaction function passed to `item_select`. -/

structure DItem where
  name : Str
  enabled : Bool
deriving DecidableEq

structure DropState where
  text : Str
  present : Bool
  enabled : Bool
  isOpen : Bool
  items : List DItem
deriving DecidableEq

/-- `NoSuchElementException` and the `Dropdown*` exception classes. -/
inductive DErr where
  | noSuchElement
  | dropdownDisabled (message : Str)
  | dropdownItemNotFound (message : Str)
  | dropdownItemDisabled (message : Str)
deriving DecidableEq

/-- `is_enabled`: reads the button's classes, so a missing dropdown raises
`NoSuchElementException`. -/
def dd_is_enabled (d : DropState) : Except DErr Bool :=
  if !d.present then .error .noSuchElement else .ok d.enabled

/-- `_verify_enabled`. -/
def dd_verify_enabled (d : DropState) : Except DErr Unit :=
  match dd_is_enabled d with
  | .error e => .error e
  | .ok en =>
    if en then .ok ()
    else .error (.dropdownDisabled
      ("Dropdown \"".data ++ d.text ++ "\" is not enabled".data))

/-- `open`: verify enabled, then click the toggle unless already open. -/
def dd_open (d : DropState) : Except DErr Unit × DropState :=
  match dd_verify_enabled d with
  | .error e => (.error e, d)
  | .ok _ => if !d.isOpen then (.ok (), { d with isOpen := true }) else (.ok (), d)

/-- `close(ignore_nonpresent)`: as `open` for the closed state, except that
`NoSuchElementException` and `DropdownDisabled` raised on the way are
swallowed when `ignore_nonpresent` is set. -/
def dd_close (d : DropState) (ignore_nonpresent : Bool) : Except DErr Unit × DropState :=
  match dd_verify_enabled d with
  | .error e =>
    match e with
    | .noSuchElement | .dropdownDisabled _ =>
      if ignore_nonpresent then (.ok (), d) else (.error e, d)
    | _ => (.error e, d)
  | .ok _ => if d.isOpen then (.ok (), { d with isOpen := false }) else (.ok (), d)

/-- `item_element`: locate the item's anchor; on failure raise
`DropdownItemNotFound` listing the available items (or noting that the
dropdown is probably not present when even those cannot be read). -/
def dd_item_element (d : DropState) (item : Str) : Except DErr DItem :=
  let found := if d.present then d.items.find? (fun it => it.name == item) else none
  match found with
  | some it => .ok it
  | none =>
    let avail : List Str := if d.present then d.items.map (fun it => it.name) else []
    let itemsString :=
      match avail with
      | [] => "The dropdown is probably not present".data
      | _ :: _ => "These items are present: ".data ++ List.intercalate "; ".data avail
    .error (.dropdownItemNotFound
      ("Item ".data ++ squote :: (item ++ squote :: " not found. ".data) ++ itemsString))

/-- `item_enabled`: verify the dropdown is enabled, then read the `disabled`
class of the item's `li`. -/
def dd_item_enabled (d : DropState) (item : Str) : Except DErr Bool :=
  match dd_verify_enabled d with
  | .error e => .error e
  | .ok _ =>
    match dd_item_element d item with
    | .error e => .error e
    | .ok it => .ok it.enabled

/-- The `try` block of `item_select`: open the dropdown, check the item's
enabled state (raising `DropdownItemDisabled` when it is disabled), and
click the item, upon which the page reacts with `eff` (alert handling and
`ensure_page_safe` are browser-side waits with no further state effect in
the model). -/
def item_select_try (d : DropState) (eff : DropState → DropState) (item : Str) :
    Except DErr Unit × DropState :=
  match dd_open d with
  | (.error e, d1) => (.error e, d1)
  | (.ok _, d1) =>
    match dd_item_enabled d1 item with
    | .error e => (.error e, d1)
    | .ok en =>
      if !en then
        (.error (.dropdownItemDisabled
          ("Item \"".data ++ item ++ ("\" of dropdown \"".data ++ d1.text
            ++ "\" is disabled".data))), d1)
      else
        match dd_item_element d1 item with
        | .error e => (.error e, d1)
        | .ok _ => (.ok (), eff d1)

/-- `item_select`: run the `try` block; in the `finally` clause close the
dropdown with `ignore_nonpresent=True`.  Per Python semantics an exception
escaping the `finally` clause would replace the body's outcome (the
surrounding handler catches only `UnexpectedAlertPresentException`, which
has no counterpart in this alert-free model). -/
def item_select (d : DropState) (eff : DropState → DropState) (item : Str) :
    Except DErr Unit × DropState :=
  let body := item_select_try d eff item
  match dd_close body.2 true with
  | (.error e2, d2) => (.error e2, d2)
  | (.ok _, d2) => (body.1, d2)

/-! ## Concrete fixtures

Small rendered trees used to evaluate the model on explicit inputs. -/

/-- A plain node: nodeid, text, indent count, expandable and expanded flags;
no title/image/checkbox, and a browser that honours expand/collapse clicks. -/
def mkN (id text : String) (ind : Nat) (expb expd : Bool) : TNode :=
  ⟨id.data, text.data, [], ind, expb, expd, none, false, false, true, true⟩

/-- A literal-string step without image constraint. -/
def stepL (s : String) : Step := ⟨none, .lit s.data⟩

/-- Single-root tree: `Parent 1` (expanded) with leaf child `Child 1`. -/
def exT1 : TreeView :=
  ⟨"t1".data, [mkN "1" "Parent 1" 0 true true, mkN "1.1" "Child 1" 1 false false]⟩

/-- Two root-level nodes. -/
def exT2 : TreeView :=
  ⟨"t2".data, [mkN "1" "Parent 1" 0 false false, mkN "2" "Parent 2" 0 false false]⟩

/-- Single root without a check icon. -/
def exT3 : TreeView := ⟨"t3".data, [mkN "1" "Parent 1" 0 false false]⟩

/-- Four root-level nodes exercising each `expand_node`/`collapse_node`
branch: not expandable; expandable collapsed (load succeeds); expandable
collapsed (load never finishes); expandable expanded (collapse never takes
effect). -/
def exT7 : TreeView :=
  ⟨"t7".data,
    [mkN "1" "A" 0 false false,
     mkN "2" "B" 0 true false,
     { mkN "3" "C" 0 true false with willExpand := false },
     { mkN "4" "D" 0 true true with willCollapse := false }]⟩

/-- Single expandable collapsed root whose lazy load never finishes, with a
child that a path would descend into. -/
def exT9 : TreeView :=
  ⟨"t9".data,
    [{ mkN "1" "P" 0 true false with willExpand := false },
     mkN "1.1" "C" 1 false false]⟩

/-- A node with text `Child 1`. -/
def exChild1 : TNode := mkN "x" "Child 1" 0 false false

/-- The compiled pattern `^Child`: under `re.match` the leading `^` anchor
is redundant, so it compiles to the literal automaton for `Child`. -/
def caretChild : RePattern := ⟨"^Child".data, litPattern "Child".data⟩

/-! ## Shared helper lemmas -/

theorem find?_map_pres (l : List TNode) (f : TNode → TNode) (p : TNode → Bool)
    (hf : ∀ x, p (f x) = p x) : (l.map f).find? p = (l.find? p).map f := by
  induction l with
  | nil => rfl
  | cons a as ih =>
    cases h : p a with
    | true =>
      rw [List.map_cons, List.find?_cons_of_pos _ (by rw [hf]; exact h),
        List.find?_cons_of_pos _ h]
      rfl
    | false =>
      rw [List.map_cons, List.find?_cons_of_neg _ (by simp [hf, h]),
        List.find?_cons_of_neg _ (by simp [h]), ih]

theorem lookupNode_setExpanded (t : TreeView) (nid : Str) (b : Bool) :
    lookupNode (setExpanded t nid b) nid =
      (lookupNode t nid).map
        (fun k => if k.nodeid == nid then { k with expanded := b } else k) := by
  unfold lookupNode setExpanded
  exact find?_map_pres _ _ _ (fun x => by by_cases hx : x.nodeid == nid <;> simp [hx])

theorem lookupNode_setExpanded_self {t : TreeView} {nid : Str} {n : TNode} (b : Bool)
    (h : lookupNode t nid = some n) :
    lookupNode (setExpanded t nid b) nid = some { n with expanded := b } := by
  have hp : (n.nodeid == nid) = true :=
    @List.find?_some TNode (fun k => k.nodeid == nid) n t.nodes h
  have hpe : n.nodeid = nid := by simpa using hp
  rw [lookupNode_setExpanded, h]
  simp [hpe]

/-- A node carrying an image, for exercising the image constraint. -/
def exImgNode : TNode :=
  { mkN "y" "Datastore" 0 false false with image := some "vendor-x".data }

theorem validate_node_lit (n : TNode) (s : Str) (img : Option Str) :
    validate_node n (.lit s) img =
      ((s == n.text) && (match img with
        | some i => image_getter n == some i
        | none => true)) := by
  unfold validate_node
  cases h : (s == n.text) <;> cases img <;> simp [h]

theorem validate_node_regex (n : TNode) (p : RePattern) (img : Option Str) :
    validate_node n (.regex p) img =
      (reMatchList p.re n.text && (match img with
        | some i => image_getter n == some i
        | none => true)) := by
  unfold validate_node
  cases h : reMatchList p.re n.text <;> cases img <;> simp [h]

/-- C6: `validate_node` matches a literal string step by exact (case- and
content-exact) equality with the node's text and a compiled-regex step by
match-from-start semantics; with an image constraint the node additionally
matches only if its image name equals the constraint.  Concretely, the regex
`^Child` matches a node whose text is `Child 1` while the literal `Child`
(or a differently-cased literal) does not. -/
theorem c6_validate_node_matching :
    (∀ (n : TNode) (s : Str) (img : Option Str),
      validate_node n (.lit s) img =
        ((s == n.text) && (match img with
          | some i => image_getter n == some i
          | none => true)))
  ∧ (∀ (n : TNode) (p : RePattern) (img : Option Str),
      validate_node n (.regex p) img =
        (reMatchList p.re n.text && (match img with
          | some i => image_getter n == some i
          | none => true)))
  ∧ (∀ (n : TNode) (m : Matcher) (i : Str),
      validate_node n m (some i) = true → image_getter n = some i)
  ∧ validate_node exChild1 (.regex caretChild) none = true
  ∧ validate_node exChild1 (.lit "Child".data) none = false
  ∧ validate_node exChild1 (.lit "child 1".data) none = false
  ∧ validate_node exChild1 (.lit "Child 1".data) none = true := by
  refine ⟨validate_node_lit, validate_node_regex, ?_, by decide, by decide,
    by decide, by decide⟩
  intro n m i h
  cases m with
  | lit s =>
    rw [validate_node_lit] at h
    simp at h
    exact h.2
  | regex p =>
    rw [validate_node_regex] at h
    simp at h
    exact h.2

/-- C6 witness: the image-constraint direction applied to a concrete node. -/
theorem c6_validate_node_matching_witness :
    image_getter exImgNode = some "vendor-x".data :=
  c6_validate_node_matching.2.2.1 exImgNode (.lit "Datastore".data)
    ("vendor-x".data) (by decide)

/-- C7: for a visible node, `expand_node` returns `False` with no click when
the node is not expandable; on an expandable node it returns `True` once the
expanded state is confirmed (clicking only when collapsed, so a call on an
already-expanded node is a state-preserving no-op), and a polling timeout
propagates as a timeout failure; `collapse_node` behaves symmetrically for
the collapsed target state. -/
theorem c7_expand_collapse_node (t : TreeView) (nid : Str) (n : TNode)
    (h : lookupNode t nid = some n) :
    (is_expandable n = false →
        expand_node t nid = (.ok false, t) ∧ collapse_node t nid = (.ok false, t))
  ∧ (is_expandable n = true → is_expanded n = true →
        expand_node t nid = (.ok true, t))
  ∧ (is_expandable n = true → is_expanded n = false → n.willExpand = true →
        expand_node t nid = (.ok true, setExpanded t nid true))
  ∧ (is_expandable n = true → is_expanded n = false → n.willExpand = false →
        expand_node t nid = (.error .timedOut, setExpanded t nid false))
  ∧ (is_expandable n = true → is_expanded n = false →
        collapse_node t nid = (.ok true, t))
  ∧ (is_expandable n = true → is_expanded n = true → n.willCollapse = true →
        collapse_node t nid = (.ok true, setExpanded t nid false))
  ∧ (is_expandable n = true → is_expanded n = true → n.willCollapse = false →
        collapse_node t nid = (.error .timedOut, setExpanded t nid true)) := by
  refine ⟨?_, ?_, ?_, ?_, ?_, ?_, ?_⟩
  · intro hexp
    have hexp' : n.expandable = false := hexp
    constructor <;>
      simp [expand_node, collapse_node, get_item_by_nodeid, h, is_expandable, hexp']
  · intro hexp hopen
    have hexp' : n.expandable = true := hexp
    have hopen' : n.expanded = true := hopen
    simp [expand_node, get_item_by_nodeid, h, is_expandable, is_collapsed,
      is_expanded, hexp', hopen']
  · intro hexp hcol hwe
    have hexp' : n.expandable = true := hexp
    have hcol' : n.expanded = false := hcol
    have h1 := lookupNode_setExpanded_self n.willExpand h
    rw [hwe] at h1
    simp [expand_node, get_item_by_nodeid, h, is_expandable, is_collapsed,
      is_expanded, hexp', hcol', hwe, h1]
  · intro hexp hcol hwe
    have hexp' : n.expandable = true := hexp
    have hcol' : n.expanded = false := hcol
    have h1 := lookupNode_setExpanded_self n.willExpand h
    rw [hwe] at h1
    simp [expand_node, get_item_by_nodeid, h, is_expandable, is_collapsed,
      is_expanded, hexp', hcol', hwe, h1]
  · intro hexp hcol
    have hexp' : n.expandable = true := hexp
    have hcol' : n.expanded = false := hcol
    simp [collapse_node, get_item_by_nodeid, h, is_expandable, is_expanded,
      hexp', hcol']
  · intro hexp hopen hwc
    have hexp' : n.expandable = true := hexp
    have hopen' : n.expanded = true := hopen
    have h1 := lookupNode_setExpanded_self (!n.willCollapse) h
    rw [hwc] at h1
    simp only [Bool.not_true] at h1
    simp [collapse_node, get_item_by_nodeid, h, is_expandable, is_collapsed,
      is_expanded, hexp', hopen', hwc, h1]
  · intro hexp hopen hwc
    have hexp' : n.expandable = true := hexp
    have hopen' : n.expanded = true := hopen
    have h1 := lookupNode_setExpanded_self (!n.willCollapse) h
    rw [hwc] at h1
    simp only [Bool.not_false] at h1
    simp [collapse_node, get_item_by_nodeid, h, is_expandable, is_collapsed,
      is_expanded, hexp', hopen', hwc, h1]

/-- C7 witness: the four interesting branches evaluated on `exT7`. -/
theorem c7_expand_collapse_node_witness :
    expand_node exT7 ("1".data) = (.ok false, exT7)
  ∧ expand_node exT7 ("2".data) = (.ok true, setExpanded exT7 ("2".data) true)
  ∧ expand_node exT7 ("3".data) = (.error .timedOut, setExpanded exT7 ("3".data) false)
  ∧ collapse_node exT7 ("4".data) = (.error .timedOut, setExpanded exT7 ("4".data) true) :=
  ⟨((c7_expand_collapse_node exT7 ("1".data) (mkN "1" "A" 0 false false)
      (by decide)).1 (by decide)).1,
   (c7_expand_collapse_node exT7 ("2".data) (mkN "2" "B" 0 true false)
      (by decide)).2.2.1 (by decide) (by decide) (by decide),
   (c7_expand_collapse_node exT7 ("3".data)
      { mkN "3" "C" 0 true false with willExpand := false }
      (by decide)).2.2.2.1 (by decide) (by decide) (by decide),
   (c7_expand_collapse_node exT7 ("4".data)
      { mkN "4" "D" 0 true true with willCollapse := false }
      (by decide)).2.2.2.2.2.2 (by decide) (by decide) (by decide)⟩

/-- C9: `has_path` returns `True` exactly when `expand_path` succeeds,
`False` exactly when it raises `CandidateNotFound`, and re-raises every
other error unswallowed. -/
theorem c9_has_path_boolean_contract (t : TreeView) (path : List Step) :
    (∀ x t', expand_path t path = (.ok x, t') → has_path t path = (.ok true, t'))
  ∧ (∀ m pp c t', expand_path t path = (.error (.candidateNotFound m pp c), t') →
      has_path t path = (.ok false, t'))
  ∧ (∀ e t', expand_path t path = (.error e, t') →
      (∀ m pp c, e ≠ .candidateNotFound m pp c) → has_path t path = (.error e, t')) := by
  refine ⟨?_, ?_, ?_⟩
  · intro x t' h
    simp [has_path, h]
  · intro m pp c t' h
    simp [has_path, h]
  · intro e t' h hne
    cases e with
    | candidateNotFound m pp c => exact absurd rfl (hne m pp c)
    | timedOut => simp [has_path, h]
    | indexError => simp [has_path, h]
    | typeErr msg => simp [has_path, h]

/-- C9 witness: the three contract clauses on concrete trees — a resolvable
path, a root mismatch (`CandidateNotFound` becomes `False`), and a lazy-load
timeout (which propagates). -/
theorem c9_has_path_boolean_contract_witness :
    has_path exT1 [stepL "Parent 1", stepL "Child 1"] =
      (.ok true, exT1)
  ∧ has_path exT1 [stepL "Nope"] = (.ok false, exT1)
  ∧ has_path exT9 [stepL "P", stepL "C"] = (.error .timedOut, exT9) :=
  ⟨(c9_has_path_boolean_contract exT1 [stepL "Parent 1", stepL "Child 1"]).1
      (some (mkN "1.1" "Child 1" 1 false false)) exT1 (by decide),
   (c9_has_path_boolean_contract exT1 [stepL "Nope"]).2.1
      (cnfMessage ("t1".data) [stepL "Nope"]) (pretty_path [])
      (rootMismatchCause (stepL "Nope")) exT1 (by decide),
   (c9_has_path_boolean_contract exT9 [stepL "P", stepL "C"]).2.2
      .timedOut exT9 (by decide) (fun m pp c h => WErr.noConfusion h)⟩

/-- A closed, enabled dropdown with one enabled item `Go`; selecting it
makes the page replace the toolbar (the dropdown disappears). -/
def exDropGone : DropState :=
  ⟨"menu".data, true, true, false, [⟨"Go".data, true⟩]⟩

/-- A closed, enabled dropdown whose single item `Stop` is disabled. -/
def exDropDis : DropState :=
  ⟨"menu".data, true, true, false, [⟨"Stop".data, false⟩]⟩

/-- `close(ignore_nonpresent=True)` never raises: the only exceptions its
body can produce are `NoSuchElementException` and `DropdownDisabled`, both
of which the handler swallows. -/
theorem dd_close_ignore_ok (d : DropState) : (dd_close d true).1 = .ok () := by
  unfold dd_close dd_verify_enabled dd_is_enabled
  by_cases hp : d.present <;> by_cases he : d.enabled <;> by_cases ho : d.isOpen <;>
    simp [hp, he, ho]

/-- C10: `item_select` always runs `close(ignore_nonpresent=True)` on the
state left behind by its `try` block, and the block's outcome — success or
any exception (`DropdownDisabled`, `DropdownItemDisabled`,
`DropdownItemNotFound`, `NoSuchElementException`) — is exactly what the
caller sees, because the ignoring close cannot raise.  Two concrete
instances: an item click that removes the dropdown from the page still ends
in success (the close swallows the missing dropdown), and a disabled item's
exception propagates while the dropdown still gets closed. -/
theorem c10_item_select_always_closes (d : DropState) (eff : DropState → DropState)
    (item : Str) :
    item_select d eff item =
      ((item_select_try d eff item).1, (dd_close (item_select_try d eff item).2 true).2)
  ∧ (∀ d', (dd_close d' true).1 = .ok ())
  ∧ item_select exDropGone (fun s => { s with present := false }) ("Go".data) =
      (.ok (), { exDropGone with isOpen := true, present := false })
  ∧ item_select exDropDis (fun s => s) ("Stop".data) =
      (.error (.dropdownItemDisabled
        ("Item \"".data ++ "Stop".data ++ ("\" of dropdown \"".data ++ "menu".data
          ++ "\" is disabled".data))), { exDropDis with isOpen := false }) := by
  refine ⟨?_, dd_close_ignore_ok, by decide, by decide⟩
  unfold item_select
  have hc := dd_close_ignore_ok (item_select_try d eff item).2
  rcases h2 : dd_close (item_select_try d eff item).2 true with ⟨r2, d2⟩
  rw [h2] at hc
  simp at hc
  rw [hc] at h2
  simp [h2]

/-- C1: when the tree has a singular root item, `expand_path` fetches it
(the first `li`, which under the renderer's document order is the unique
root-level node) and validates the first step against it before any
descent, raising `CandidateNotFound` whose cause names the root mismatch
when validation fails; when the root-level count is not one, no implicit
root validation happens and the loop starts with no current node, so the
first step is matched among the root-level siblings
(`child_items t none = root_items t`). -/
theorem c1_singular_root_validation (t : TreeView) (s : Step) (rest : List Step)
    (r : TNode) :
    (root_item t = some r → root_item_count t = 1 ∧ t.nodes.head? = some r)
  ∧ (root_item t = some r → validate_node r s.matcher s.image = false →
      expand_path t (s :: rest) =
        (.error (.candidateNotFound (cnfMessage t.treeId [s]) (pretty_path rest)
          (rootMismatchCause s)), t))
  ∧ (root_item_count t ≠ 1 →
      expand_path t (s :: rest) =
        expandSteps t none (s :: rest) (pretty_path (s :: rest)) []
      ∧ child_items t none = root_items t) := by
  refine ⟨?_, ?_, ?_⟩
  · intro hr
    unfold root_item at hr
    by_cases hc : root_item_count t = 1
    · exact ⟨hc, by simpa [hc] using hr⟩
    · rw [if_neg hc] at hr
      exact absurd hr (by simp)
  · intro hr hval
    unfold expand_path
    rw [hr]
    simp [hval]
  · intro hc
    have hr : root_item t = none := by unfold root_item; rw [if_neg hc]
    constructor
    · unfold expand_path
      rw [hr]
    · rfl

/-- C1 witness: on the singular-root `exT1` a mismatching first step raises
the root-mismatch `CandidateNotFound`; on the two-root `exT2` the same call
is the sibling-matching loop from no current node. -/
theorem c1_singular_root_validation_witness :
    expand_path exT1 [stepL "Nope"] =
      (.error (.candidateNotFound (cnfMessage ("t1".data) [stepL "Nope"])
        (pretty_path []) (rootMismatchCause (stepL "Nope"))), exT1)
  ∧ expand_path exT2 [stepL "Parent 2"] =
      expandSteps exT2 none [stepL "Parent 2"] (pretty_path [stepL "Parent 2"]) [] :=
  ⟨(c1_singular_root_validation exT1 (stepL "Nope") []
      (mkN "1" "Parent 1" 0 true true)).2.1 (by decide) (by decide),
   ((c1_singular_root_validation exT2 (stepL "Parent 2") []
      (mkN "1" "Parent 1" 0 false false)).2.2 (by decide)).1⟩

/-- C3 counterexample: the claim says `node_checked` raises a type error on
a non-checkable resolved node, but on the concrete single-root tree `exT3`
(whose root has no check icon) it returns normally with `False`. -/
theorem c3_counterexample_node_checked_no_typeerror :
    node_checked exT3 [stepL "Parent 1"] = (.ok false, exT3)
  ∧ (node_checked exT3 [stepL "Parent 1"]).1 ≠
      .error (.typeErr (notCheckableMsg ("t3".data) [stepL "Parent 1"])) := by
  constructor <;> decide

/-- C3 (amended): `check_node` and `uncheck_node` first resolve the leaf via
`expand_path` and raise a `TypeError` when the resolved node exposes no
checkable affordance; `node_checked` also resolves via `expand_path` first
but returns `False` instead of raising on a non-checkable node. -/
theorem c3_checkable_affordance_guard (t : TreeView) (path : List Step)
    (leaf : TNode) (t' : TreeView)
    (h : expand_path t path = (.ok (some leaf), t'))
    (hc : is_checkable leaf = false) :
    check_node t path = (.error (.typeErr (notCheckableMsg t'.treeId path)), t')
  ∧ uncheck_node t path = (.error (.typeErr (notCheckableMsg t'.treeId path)), t')
  ∧ node_checked t path = (.ok false, t') := by
  have hc' : leaf.checkable = false := hc
  refine ⟨?_, ?_, ?_⟩ <;>
    simp [check_node, uncheck_node, node_checked, check_uncheck_node, h,
      is_checkable, hc']

/-- C3 witness: the amended guard applied on `exT3`. -/
theorem c3_checkable_affordance_guard_witness :
    check_node exT3 [stepL "Parent 1"] =
      (.error (.typeErr (notCheckableMsg ("t3".data) [stepL "Parent 1"])), exT3)
  ∧ uncheck_node exT3 [stepL "Parent 1"] =
      (.error (.typeErr (notCheckableMsg ("t3".data) [stepL "Parent 1"])), exT3) :=
  ⟨(c3_checkable_affordance_guard exT3 [stepL "Parent 1"]
      (mkN "1" "Parent 1" 0 false false) exT3 (by decide) (by decide)).1,
   (c3_checkable_affordance_guard exT3 [stepL "Parent 1"]
      (mkN "1" "Parent 1" 0 false false) exT3 (by decide) (by decide)).2.1⟩

/-! ## C5: direct-children enumeration and the nodeid/indent invariant -/

/-- Number of dots in a nodeid (its depth under the dot-numbering scheme). -/
def dotCount (s : Str) : Nat := s.count '.'

/-- The §3 invariant, nodewise: every node's indent marker count equals its
nodeid's dot count (depth).  A direct child's nodeid being the parent's plus
one more dot-segment then forces exactly one more indent marker. -/
def nodeInvariantB (t : TreeView) : Bool :=
  t.nodes.all (fun n => n.indents == dotCount n.nodeid)

/-- `c` is a direct-child nodeid of `p`: `p` followed by a dot and exactly
one more non-empty, dot-free segment. -/
def directChildId (p c : Str) : Bool :=
  strStarts (p ++ ['.']) c &&
    (!(c.drop (p.length + 1)).isEmpty && !(c.drop (p.length + 1)).contains '.')

/-- `c` lies at least two dot-segments below `p`: `p`, a dot, and a
remainder containing another dot (grandchildren and deeper). -/
def deeperDescendantId (p c : Str) : Bool :=
  strStarts (p ++ ['.']) c && (c.drop (p.length + 1)).contains '.'

theorem strStarts_append (p r : Str) : strStarts p (p ++ r) = true := by
  induction p with
  | nil => rfl
  | cons a as ih => simp [strStarts, ih]

theorem strStarts_refl (p : Str) : strStarts p p = true := by
  have h := strStarts_append p []
  simpa using h

theorem strStarts_exists {p c : Str} (h : strStarts p c = true) : ∃ r, c = p ++ r := by
  induction p generalizing c with
  | nil => exact ⟨c, rfl⟩
  | cons a as ih =>
    cases c with
    | nil => simp [strStarts] at h
    | cons b bs =>
      simp [strStarts] at h
      obtain ⟨r, hr⟩ := ih h.2
      exact ⟨r, by simp [h.1, hr]⟩

/-- The tree with nodeids `1`, `1.1`, `10`, `10.0` at depths `0, 1, 0, 1`:
it satisfies the invariant, yet `starts-with` also accepts `10.0` as a
"child" of `1`. -/
def exT5 : TreeView :=
  ⟨"t5".data,
    [mkN "1" "One" 0 true true, mkN "1.1" "OneOne" 1 false false,
     mkN "10" "Ten" 0 true true, mkN "10.0" "TenZero" 1 false false]⟩

/-- C5 counterexample: on the invariant-satisfying `exT5`, `child_items` of
the node `1` also returns `10.0` — a node that is *not* a direct child of
`1` — so the enumeration is not exactly the direct children. -/
theorem c5_counterexample_child_items_overmatch :
    nodeInvariantB exT5 = true
  ∧ (child_items exT5 (some (mkN "1" "One" 0 true true))).map get_nodeid =
      ["1.1".data, "10.0".data]
  ∧ directChildId ("1".data) ("10.0".data) = false := by
  refine ⟨by decide, by decide, by decide⟩

/-- C5 (amended): under the nodeid/indent invariant, `child_items` contains
every direct child of the queried node and never any grandchild or deeper
descendant; every returned node has the parent's nodeid as a string prefix,
a different nodeid, and exactly one more indent marker.  The raw
`starts-with` comparison may however additionally admit nodes of a *sibling*
subtree whose nodeid extends the parent's without a dot (such as `10.0`
under `1`), so the result is not always exactly the direct children. -/
theorem c5_child_items_direct_children (t : TreeView) (p : TNode)
    (hw : nodeInvariantB t = true) (hp : p ∈ t.nodes) :
    (∀ c ∈ t.nodes, directChildId p.nodeid c.nodeid = true →
        c ∈ child_items t (some p))
  ∧ (∀ c ∈ child_items t (some p), deeperDescendantId p.nodeid c.nodeid = false)
  ∧ (∀ c ∈ child_items t (some p),
        strStarts p.nodeid c.nodeid = true ∧ c.nodeid ≠ p.nodeid ∧
          c.indents = p.indents + 1) := by
  have hwAll : ∀ n ∈ t.nodes, n.indents = dotCount n.nodeid := by
    intro n hn
    have := List.all_eq_true.mp hw n hn
    simpa using this
  have hmem : ∀ c, c ∈ child_items t (some p) ↔
      c ∈ t.nodes ∧ strStarts p.nodeid c.nodeid = true ∧ c.nodeid ≠ p.nodeid ∧
        c.indents = p.indents + 1 := by
    intro c
    unfold child_items childNodes get_nodeid indents
    rw [List.mem_filter]
    constructor
    · rintro ⟨h1, h2⟩
      simp only [Bool.and_eq_true, beq_iff_eq, Bool.not_eq_eq_eq_not,
        Bool.not_true, Bool.not_eq_true] at h2
      refine ⟨h1, h2.1.1, ?_, h2.2⟩
      have := h2.1.2
      simpa using this
    · rintro ⟨h1, h2, h3, h4⟩
      refine ⟨h1, ?_⟩
      simp [h2, h3, h4]
  refine ⟨?_, ?_, ?_⟩
  · intro c hc hdc
    unfold directChildId at hdc
    simp only [Bool.and_eq_true] at hdc
    obtain ⟨r, hr⟩ := strStarts_exists hdc.1
    have hseg : c.nodeid.drop (p.nodeid.length + 1) = r := by
      rw [hr, show p.nodeid.length + 1 = (p.nodeid ++ ['.']).length by simp]
      exact List.drop_left _ _
    rw [hseg] at hdc
    have hrdot : ('.' : Char) ∉ r := by
      have := hdc.2.2
      simpa using this
    rw [hmem]
    refine ⟨hc, ?_, ?_, ?_⟩
    · rw [hr, List.append_assoc]
      exact strStarts_append _ _
    · intro he
      have hlen : c.nodeid.length = p.nodeid.length + 1 + r.length := by
        rw [hr]; simp; omega
      rw [he] at hlen
      omega
    · have hcd : dotCount c.nodeid = dotCount p.nodeid + 1 := by
        unfold dotCount
        rw [hr, List.count_append, List.count_append]
        have hz : r.count '.' = 0 := List.count_eq_zero.mpr hrdot
        simp [hz]
      rw [hwAll c hc, hwAll p hp, hcd]
  · intro c hc
    cases hdd : deeperDescendantId p.nodeid c.nodeid with
    | false => rfl
    | true =>
      exfalso
      unfold deeperDescendantId at hdd
      simp only [Bool.and_eq_true] at hdd
      obtain ⟨r, hr⟩ := strStarts_exists hdd.1
      have hseg : c.nodeid.drop (p.nodeid.length + 1) = r := by
        rw [hr, show p.nodeid.length + 1 = (p.nodeid ++ ['.']).length by simp]
        exact List.drop_left _ _
      rw [hseg] at hdd
      have hrdot : ('.' : Char) ∈ r := by
        have := hdd.2
        simpa using this
      have hfacts := (hmem c).mp hc
      have hcd : dotCount c.nodeid ≥ dotCount p.nodeid + 2 := by
        unfold dotCount
        rw [hr, List.count_append, List.count_append]
        have hpos : 0 < r.count '.' := List.count_pos_iff.mpr hrdot
        simp
        omega
      have h1 := hwAll c hfacts.1
      have h2 := hwAll p hp
      have h3 := hfacts.2.2.2
      omega
  · intro c hc
    exact ((hmem c).mp hc).2

/-- The spec's example tree: nodeids `1`, `1.1`, `1.1.1` at depths
`0, 1, 2`. -/
def exT5c : TreeView :=
  ⟨"t5c".data,
    [mkN "1" "Top" 0 true true, mkN "1.1" "Mid" 1 true true,
     mkN "1.1.1" "Leaf" 2 false false]⟩

/-- C5 witness: on the spec's `1 / 1.1 / 1.1.1` example tree, the direct
child `1.1` is enumerated, it is no deeper descendant, and the grandchild
`1.1.1` is excluded. -/
theorem c5_child_items_direct_children_witness :
    mkN "1.1" "Mid" 1 true true ∈ child_items exT5c (some (mkN "1" "Top" 0 true true))
  ∧ deeperDescendantId ("1".data) ("1.1".data) = false
  ∧ ¬ mkN "1.1.1" "Leaf" 2 false false ∈
      child_items exT5c (some (mkN "1" "Top" 0 true true)) := by
  have h := c5_child_items_direct_children exT5c (mkN "1" "Top" 0 true true)
    (by decide) (by decide)
  have hmem := h.1 (mkN "1.1" "Mid" 1 true true) (by decide) (by decide)
  exact ⟨hmem, h.2.1 (mkN "1.1" "Mid" 1 true true) hmem, by decide⟩

/-! ## C2: the text-filtered child query is a pure optimisation -/

theorem find?_filter_superset (l : List TNode) (p q : TNode → Bool)
    (h : ∀ x, p x = true → q x = true) : (l.filter q).find? p = l.find? p := by
  induction l with
  | nil => rfl
  | cons a as ih =>
    by_cases hq : q a = true
    · rw [List.filter_cons_of_pos hq]
      cases hp : p a with
      | true => rw [List.find?_cons_of_pos _ hp, List.find?_cons_of_pos _ hp]
      | false =>
        rw [List.find?_cons_of_neg _ (by simp [hp]),
          List.find?_cons_of_neg _ (by simp [hp]), ih]
    · have hp : p a = false := by
        cases hpa : p a with
        | true => exact absurd (h a hpa) hq
        | false => rfl
      rw [List.filter_cons_of_neg hq, ih, List.find?_cons_of_neg _ (by simp [hp])]

theorem substrB_refl (s : Str) : substrB s s = true := by
  cases s with
  | nil => rfl
  | cons c cs =>
    unfold substrB
    simp [strStarts_refl]

theorem validate_lit_text_filter (s : Str) (img : Option Str) (c : TNode)
    (h : validate_node c (.lit s) img = true) : substrB s c.text = true := by
  rw [validate_node_lit] at h
  simp only [Bool.and_eq_true, beq_iff_eq] at h
  rw [h.1]
  exact substrB_refl _

/-- A literal step validates a child only if the child also passes the
`CHILD_ITEMS_TEXT` / `ROOT_ITEMS_WITH_TEXT` text filter, so filtering first
never drops the element the scan would select: the first validating element
of the filtered query equals the first validating element of the unfiltered
direct-children query. -/
theorem find?_with_text_eq (t : TreeView) (node : Option TNode) (s : Str)
    (img : Option Str) :
    (child_items_with_text t node s).find? (fun c => validate_node c (.lit s) img)
      = (child_items t node).find? (fun c => validate_node c (.lit s) img) := by
  cases node with
  | some n =>
    unfold child_items_with_text child_items
    exact find?_filter_superset _ _ _
      (fun x hx => by
        have hs := validate_lit_text_filter s img x hx
        simp [hs])
  | none =>
    unfold child_items_with_text child_items root_items
    exact find?_filter_superset _ _ _
      (fun x hx => validate_lit_text_filter s img x hx)

/-- Modelled from the spec's description for the refinement comparison: the
step loop that always enumerates all direct children unfiltered, regardless
of the step's kind. -/
def expandStepsAll :
    TreeView → Option TNode → List Step → Str → List Step →
      Except WErr (Option TNode) × TreeView
  | t, node, [], _, _ => (.ok node, t)
  | t, node, step :: rest, pathRepr, tried =>
    let tried' := tried ++ [step]
    match expandCurrent t node step pathRepr tried' with
    | (.error e, t1) => (.error e, t1)
    | (.ok _, t1) =>
      match (child_items t1 node).find?
          (fun c => validate_node c step.matcher step.image) with
      | some c => expandStepsAll t1 (some c) rest pathRepr tried'
      | none =>
        match tried.getLast? with
        | some prev =>
          (.error (.candidateNotFound (cnfMessage t1.treeId tried') pathRepr
            (notFoundInCause prev)), t1)
        | none => (.error .indexError, t1)

/-- Modelled from the spec's description for the refinement comparison:
`expand_path` over the unfiltered step loop. -/
def expand_pathAll (t : TreeView) (path : List Step) :
    Except WErr (Option TNode) × TreeView :=
  match root_item t with
  | some rootN =>
    match path with
    | [] => (.error .indexError, t)
    | step :: rest =>
      if validate_node rootN step.matcher step.image then
        expandStepsAll t (some rootN) rest (pretty_path rest) [step]
      else
        (.error (.candidateNotFound (cnfMessage t.treeId [step]) (pretty_path rest)
          (rootMismatchCause step)), t)
  | none => expandStepsAll t none path (pretty_path path) []

theorem expandSteps_eq_all (rest : List Step) :
    ∀ (t : TreeView) (node : Option TNode) (pathRepr : Str) (tried : List Step),
      expandSteps t node rest pathRepr tried = expandStepsAll t node rest pathRepr tried := by
  induction rest with
  | nil => intro t node pathRepr tried; rfl
  | cons step rs ih =>
    intro t node pathRepr tried
    simp only [expandSteps, expandStepsAll]
    rcases hE : expandCurrent t node step pathRepr (tried ++ [step]) with ⟨r, t1⟩
    cases r with
    | error e => simp [hE]
    | ok u =>
      simp only [hE]
      cases hm : step.matcher with
      | lit s =>
        have hred : (match Matcher.lit s with
            | Matcher.lit s => child_items_with_text t1 node s
            | Matcher.regex _ => child_items t1 node) = child_items_with_text t1 node s := rfl
        rw [hred, find?_with_text_eq]
        cases hf : (child_items t1 node).find?
            (fun c => validate_node c (.lit s) step.image) with
        | some c => simp [hf, ih]
        | none => simp [hf]
      | regex p =>
        have hred : (match Matcher.regex p with
            | Matcher.lit s => child_items_with_text t1 node s
            | Matcher.regex _ => child_items t1 node) = child_items t1 node := rfl
        rw [hred]
        cases hf : (child_items t1 node).find?
            (fun c => validate_node c (.regex p) step.image) with
        | some c => simp [hf, ih]
        | none => simp [hf]

/-- C2: within `expand_path`'s step resolution the selected child is the
first validating element, in document order, of the child query (the child
queries are order-preserving sublists of the flat `li` list); and for a
literal string step the narrower text-filtered query selects exactly the
child the unfiltered scan would select, so `expand_path` coincides with the
spec's reference formulation that always enumerates all direct children
unfiltered. -/
theorem c2_text_filtered_query_equivalence :
    (∀ (t : TreeView) (node : Option TNode) (s : Str) (img : Option Str),
      (child_items_with_text t node s).find? (fun c => validate_node c (.lit s) img)
        = (child_items t node).find? (fun c => validate_node c (.lit s) img))
  ∧ (∀ (rest : List Step) (t : TreeView) (node : Option TNode) (pathRepr : Str)
        (tried : List Step),
      expandSteps t node rest pathRepr tried = expandStepsAll t node rest pathRepr tried)
  ∧ (∀ (t : TreeView) (path : List Step), expand_path t path = expand_pathAll t path)
  ∧ (∀ (t : TreeView) (nid : Str) (ind : Nat), (childNodes t nid ind).Sublist t.nodes)
  ∧ (∀ t : TreeView, (root_items t).Sublist t.nodes) := by
  refine ⟨find?_with_text_eq, expandSteps_eq_all, ?_, ?_, ?_⟩
  · intro t path
    unfold expand_path expand_pathAll
    cases hr : root_item t with
    | none => exact expandSteps_eq_all _ _ _ _ _
    | some rootN =>
      cases path with
      | nil => rfl
      | cons step rest =>
        by_cases hv : validate_node rootN step.matcher step.image = true
        · simp [hv, expandSteps_eq_all]
        · simp [hv]
  · intro t nid ind
    exact List.filter_sublist _
  · intro t
    exact List.filter_sublist _

/-! ## C4: `read_contents` with `collapse_after_read` -/

/-- Is an `Except` result a success? -/
def isOkE {ε α : Type} : Except ε α → Bool
  | .ok _ => true
  | .error _ => false

/-- Single expandable root `1`, *already expanded* before any call, with a
leaf child `1.1`. -/
def exT4 : TreeView :=
  ⟨"t4".data, [mkN "1" "Root" 0 true true, mkN "1.1" "Kid" 1 false false]⟩

/-- C4 counterexample: `read_contents(collapse_after_read=True)` on `exT4`
succeeds but leaves the root collapsed although it was expanded before the
call — the traversal collapses every branch it read, including branches that
were already expanded, so the visible expansion state is *not* restored. -/
theorem c4_counterexample_state_not_restored :
    isOkE (read_contents 4 exT4 (some ("1".data)) false true).1 = true
  ∧ (read_contents 4 exT4 (some ("1".data)) false true).2 =
      setExpanded exT4 ("1".data) false
  ∧ setExpanded exT4 ("1".data) false ≠ exT4 := by
  refine ⟨by decide, by decide, by decide⟩

/-- Renderer-guaranteed wellformedness used by the traversal theorems:
`data-nodeid` values are unique across the rendered `li` elements (element
identity coincides with nodeid identity). -/
def UniqueIds (t : TreeView) : Prop :=
  (t.nodes.map (fun n => n.nodeid)).Nodup

/-- A node with its (only ever mutated) `expanded` flag blanked: two nodes
with equal `stripNode` images differ at most in their expansion state. -/
def stripNode (n : TNode) : TNode := { n with expanded := false }

/-- Two trees that differ at most in expansion flags. -/
def sameShape (t u : TreeView) : Prop :=
  t.treeId = u.treeId ∧ t.nodes.map stripNode = u.nodes.map stripNode

theorem sameShape_refl (t : TreeView) : sameShape t t := ⟨rfl, rfl⟩

theorem sameShape_trans {t u v : TreeView} (h1 : sameShape t u) (h2 : sameShape u v) :
    sameShape t v := ⟨h1.1.trans h2.1, h1.2.trans h2.2⟩

theorem sameShape_setExpanded (t : TreeView) (nid : Str) (b : Bool) :
    sameShape t (setExpanded t nid b) := by
  refine ⟨rfl, ?_⟩
  unfold setExpanded
  rw [List.map_map]
  apply List.map_congr_left
  intro a _
  by_cases ha : a.nodeid == nid <;> simp [stripNode, Function.comp, ha]

theorem sameShape_expand_node (t : TreeView) (nid : Str) :
    sameShape t (expand_node t nid).2 := by
  unfold expand_node
  cases hg : get_item_by_nodeid t nid with
  | error e => exact sameShape_refl t
  | ok node =>
    by_cases h1 : is_expandable node = true
    · simp only [h1]
      by_cases h2 : is_collapsed node = true
      · simp only [h2]
        cases hg2 : get_item_by_nodeid (setExpanded t nid node.willExpand) nid with
        | error e => simpa using sameShape_setExpanded t nid node.willExpand
        | ok n1 =>
          by_cases h3 : is_expanded n1 = true <;>
            simp [h2, hg2, h3, sameShape_setExpanded]
      · simp only [h2]
        simp at h2
        simp [h2, sameShape_refl]
    · simp at h1
      simp [h1, sameShape_refl]

theorem sameShape_collapse_node (t : TreeView) (nid : Str) :
    sameShape t (collapse_node t nid).2 := by
  unfold collapse_node
  cases hg : get_item_by_nodeid t nid with
  | error e => exact sameShape_refl t
  | ok node =>
    by_cases h1 : is_expandable node = true
    · simp only [h1]
      by_cases h2 : is_expanded node = true
      · simp only [h2]
        cases hg2 : get_item_by_nodeid (setExpanded t nid (!node.willCollapse)) nid with
        | error e => simpa using sameShape_setExpanded t nid (!node.willCollapse)
        | ok n1 =>
          by_cases h3 : is_collapsed n1 = true <;>
            simp [h2, hg2, h3, sameShape_setExpanded]
      · simp only [h2]
        simp at h2
        simp [h2, sameShape_refl]
    · simp at h1
      simp [h1, sameShape_refl]

/-- Field-wise consequences of equal stripped nodes. -/
theorem stripNode_fields {a b : TNode} (h : stripNode a = stripNode b) :
    a.nodeid = b.nodeid ∧ a.text = b.text ∧ a.title = b.title ∧
      a.indents = b.indents ∧ a.expandable = b.expandable ∧ a.image = b.image ∧
      a.checkable = b.checkable ∧ a.checked = b.checked ∧
      a.willExpand = b.willExpand ∧ a.willCollapse = b.willCollapse := by
  cases a
  cases b
  simp only [stripNode, TNode.mk.injEq] at h
  obtain ⟨h1, h2, h3, h4, h5, -, h6, h7, h8, h9, h10⟩ := h
  exact ⟨h1, h2, h3, h4, h5, h6, h7, h8, h9, h10⟩

/-- Equality of stripped maps as a pointwise relation. -/
theorem map_strip_eq_forall₂ {l l' : List TNode} :
    l.map stripNode = l'.map stripNode ↔
      List.Forall₂ (fun a b => stripNode a = stripNode b) l l' := by
  constructor
  · intro h
    induction l generalizing l' with
    | nil =>
      cases l' with
      | nil => constructor
      | cons b bs => simp at h
    | cons a as ih =>
      cases l' with
      | nil => simp at h
      | cons b bs =>
        simp only [List.map_cons, List.cons.injEq] at h
        exact List.Forall₂.cons h.1 (ih h.2)
  · intro h
    induction h with
    | nil => rfl
    | cons h1 _ ih => simp [h1, ih]

theorem filter_forall₂_shape {p : TNode → Bool}
    (hp : ∀ a b, stripNode a = stripNode b → p a = p b) :
    ∀ {l l' : List TNode},
      List.Forall₂ (fun a b => stripNode a = stripNode b) l l' →
        List.Forall₂ (fun a b => stripNode a = stripNode b) (l.filter p) (l'.filter p) := by
  intro l l' h
  induction h with
  | nil => constructor
  | @cons a b as bs hab _ ih =>
    by_cases hpa : p a = true
    · rw [List.filter_cons_of_pos hpa, List.filter_cons_of_pos (by rw [← hp _ _ hab]; exact hpa)]
      exact List.Forall₂.cons hab ih
    · rw [List.filter_cons_of_neg hpa, List.filter_cons_of_neg (by rw [← hp _ _ hab]; exact hpa)]
      exact ih

theorem find?_strip_eq {p : TNode → Bool}
    (hp : ∀ a b, stripNode a = stripNode b → p a = p b) :
    ∀ {l l' : List TNode},
      List.Forall₂ (fun a b => stripNode a = stripNode b) l l' →
        (l.find? p).map stripNode = (l'.find? p).map stripNode := by
  intro l l' h
  induction h with
  | nil => rfl
  | @cons a b as bs hab _ ih =>
    by_cases hpa : p a = true
    · rw [List.find?_cons_of_pos _ hpa, List.find?_cons_of_pos _ (by rw [← hp _ _ hab]; exact hpa)]
      simpa using hab
    · rw [List.find?_cons_of_neg _ hpa, List.find?_cons_of_neg _ (by rw [← hp _ _ hab]; exact hpa)]
      exact ih

/-- The `CHILD_ITEMS` filter only reads fields `stripNode` preserves. -/
theorem childNodes_pred_shape (nid : Str) (ind : Nat) :
    ∀ a b : TNode, stripNode a = stripNode b →
      (strStarts nid a.nodeid && !(a.nodeid == nid) && (a.indents == ind + 1)) =
        (strStarts nid b.nodeid && !(b.nodeid == nid) && (b.indents == ind + 1)) := by
  intro a b hab
  obtain ⟨h1, _, _, h4, _⟩ := stripNode_fields hab
  rw [h1, h4]

theorem childNodes_shape {t u : TreeView} (h : sameShape t u) (nid : Str) (ind : Nat) :
    List.Forall₂ (fun a b => stripNode a = stripNode b)
      (childNodes t nid ind) (childNodes u nid ind) := by
  unfold childNodes
  exact filter_forall₂_shape (childNodes_pred_shape nid ind)
    (map_strip_eq_forall₂.mp h.2)

theorem lookupNode_shape {t u : TreeView} (h : sameShape t u) (nid : Str) :
    (lookupNode t nid).map stripNode = (lookupNode u nid).map stripNode := by
  unfold lookupNode
  exact find?_strip_eq
    (fun a b hab => by rw [(stripNode_fields hab).1])
    (map_strip_eq_forall₂.mp h.2)

theorem map_nodeid_of_forall₂ :
    ∀ {l l' : List TNode},
      List.Forall₂ (fun a b => stripNode a = stripNode b) l l' →
        l.map (fun n => n.nodeid) = l'.map (fun n => n.nodeid) := by
  intro l l' h
  induction h with
  | nil => rfl
  | cons hab _ ih => simp [ih, (stripNode_fields hab).1]

/-- `sameShape` preserves nodeid uniqueness. -/
theorem sameShape_uniqueIds {t u : TreeView} (h : sameShape t u) (hu : UniqueIds t) :
    UniqueIds u := by
  unfold UniqueIds at hu ⊢
  rw [← map_nodeid_of_forall₂ (map_strip_eq_forall₂.mp h.2)]
  exact hu

/-- The traversal only ever toggles expansion flags: both `read_contents`
and its child loop preserve the tree's shape. -/
theorem sameShape_read (fuel : Nat) :
    (∀ (t : TreeView) (nid? : Option Str) (incl col : Bool),
       sameShape t (read_contents fuel t nid? incl col).2)
  ∧ (∀ (t : TreeView) (cs : List TNode) (incl col : Bool),
       sameShape t (read_children fuel t cs incl col).2) := by
  induction fuel with
  | zero =>
    constructor
    · intro t nid? incl col
      exact sameShape_refl t
    · intro t cs incl col
      cases cs <;> exact sameShape_refl t
  | succ fuel ih =>
    obtain ⟨ihN, ihL⟩ := ih
    constructor
    · intro t nid? incl col
      cases nid? with
      | none =>
        simp only [read_contents]
        cases hr : root_item t with
        | some r => exact ihN t (some (get_nodeid r)) incl col
        | none => exact sameShape_refl t
      | some nid =>
        simp only [read_contents]
        cases hi : get_item_by_nodeid t nid with
        | error e => exact sameShape_refl t
        | ok item =>
          rcases he : expand_node t nid with ⟨re, t1⟩
          have s1 : sameShape t t1 := by
            have hs := sameShape_expand_node t nid
            rw [he] at hs
            exact hs
          cases re with
          | error e => exact s1
          | ok b =>
            dsimp only
            rcases hc : read_children fuel t1
                (childNodes t1 (get_nodeid item) (indents item)) incl col
              with ⟨rc, t2⟩
            have s2 : sameShape t1 t2 := by
              have hs := ihL t1 (childNodes t1 (get_nodeid item) (indents item)) incl col
              rw [hc] at hs
              exact hs
            cases rc with
            | error e => exact sameShape_trans s1 s2
            | ok kids =>
              dsimp only
              rcases hk : (if col then collapse_node t2 nid else (.ok true, t2))
                with ⟨rk, t3⟩
              have s3 : sameShape t2 t3 := by
                by_cases hcol : col
                · rw [if_pos hcol] at hk
                  have hs := sameShape_collapse_node t2 nid
                  rw [hk] at hs
                  exact hs
                · rw [if_neg hcol] at hk
                  injection hk with hk1 hk2
                  subst hk2
                  exact sameShape_refl t2
              cases rk with
              | error e => exact sameShape_trans s1 (sameShape_trans s2 s3)
              | ok b2 =>
                dsimp only
                cases kids with
                | nil => exact sameShape_trans s1 (sameShape_trans s2 s3)
                | cons k ks => exact sameShape_trans s1 (sameShape_trans s2 s3)
    · intro t cs incl col
      cases cs with
      | nil => exact sameShape_refl t
      | cons c cs' =>
        simp only [read_children]
        rcases h1 : read_contents fuel t (some (get_nodeid c)) incl col with ⟨r1, t1⟩
        have s1 : sameShape t t1 := by
          have hs := ihN t (some (get_nodeid c)) incl col
          rw [h1] at hs
          exact hs
        cases r1 with
        | error e => exact s1
        | ok v =>
          dsimp only
          rcases h2 : read_children fuel t1 cs' incl col with ⟨r2, t2⟩
          have s2 : sameShape t1 t2 := by
            have hs := ihL t1 cs' incl col
            rw [h2] at hs
            exact hs
          cases r2 with
          | error e => exact sameShape_trans s1 s2
          | ok vs => exact sameShape_trans s1 s2

theorem sameShape_symm {t u : TreeView} (h : sameShape t u) : sameShape u t :=
  ⟨h.1.symm, h.2.symm⟩

theorem forall₂_shape_refl (l : List TNode) :
    List.Forall₂ (fun a b => stripNode a = stripNode b) l l := by
  induction l with
  | nil => constructor
  | cons a as ih => exact List.Forall₂.cons rfl ih

/-- The visited-nodeid set only depends on the tree's shape. -/
theorem subtree_shape (fuel : Nat) :
    (∀ (t u : TreeView), sameShape t u →
       ∀ nid, subtreeN fuel t nid = subtreeN fuel u nid)
  ∧ (∀ (t u : TreeView), sameShape t u →
       ∀ (cs cs' : List TNode),
         List.Forall₂ (fun a b => stripNode a = stripNode b) cs cs' →
           subtreeList fuel t cs = subtreeList fuel u cs') := by
  induction fuel with
  | zero =>
    constructor
    · intro t u _ nid
      rfl
    · intro t u _ cs cs' h
      cases h with
      | nil => rfl
      | cons => rfl
  | succ fuel ih =>
    obtain ⟨ihN, ihL⟩ := ih
    constructor
    · intro t u hs nid
      simp only [subtreeN]
      have hl := lookupNode_shape hs nid
      cases h1 : lookupNode t nid with
      | none =>
        cases h2 : lookupNode u nid with
        | none => rfl
        | some b =>
          rw [h1, h2] at hl
          exact Option.noConfusion hl
      | some a =>
        cases h2 : lookupNode u nid with
        | none =>
          rw [h1, h2] at hl
          exact Option.noConfusion hl
        | some b =>
          rw [h1, h2] at hl
          simp at hl
          obtain ⟨hid, -, -, hind, -⟩ := stripNode_fields hl
          dsimp only
          unfold get_nodeid indents
          rw [hid, hind]
          rw [ihL t u hs _ _ (childNodes_shape hs b.nodeid b.indents)]
    · intro t u hs cs cs' h
      cases h with
      | nil => rfl
      | @cons a b as bs hab htail =>
        simp only [subtreeList]
        unfold get_nodeid
        rw [(stripNode_fields hab).1, ihN t u hs b.nodeid, ihL t u hs _ _ htail]

/-! The "modifies only the visited subtree" relation: pointwise, a node may
change only its expansion flag, and even that only when its nodeid belongs
to the visited set. -/

def relOutside (S : List Str) (a b : TNode) : Prop :=
  stripNode a = stripNode b ∧ (¬ a.nodeid ∈ S → a = b)

theorem relOutside_refl (S : List Str) (a : TNode) : relOutside S a a :=
  ⟨rfl, fun _ => rfl⟩

theorem relOutside_mono {S S' : List Str} (hsub : ∀ x ∈ S, x ∈ S') {a b : TNode}
    (h : relOutside S a b) : relOutside S' a b :=
  ⟨h.1, fun hn => h.2 (fun hm => hn (hsub _ hm))⟩

theorem relOutside_trans {S : List Str} {a b c : TNode}
    (h1 : relOutside S a b) (h2 : relOutside S b c) : relOutside S a c := by
  refine ⟨h1.1.trans h2.1, fun hn => ?_⟩
  have hab := h1.2 hn
  have hbn : ¬ b.nodeid ∈ S := by
    rw [← (stripNode_fields h1.1).1]
    exact hn
  exact hab.trans (h2.2 hbn)

theorem forall₂_relOutside_refl (S : List Str) (l : List TNode) :
    List.Forall₂ (relOutside S) l l := by
  induction l with
  | nil => constructor
  | cons a as ih => exact List.Forall₂.cons (relOutside_refl S a) ih

theorem forall₂_relOutside_trans {S : List Str} :
    ∀ {l1 l2 l3 : List TNode}, List.Forall₂ (relOutside S) l1 l2 →
      List.Forall₂ (relOutside S) l2 l3 → List.Forall₂ (relOutside S) l1 l3 := by
  intro l1 l2 l3 h1
  induction h1 generalizing l3 with
  | nil =>
    intro h2
    cases h2
    constructor
  | @cons a b as bs hab _ ih =>
    intro h2
    cases h2 with
    | cons hbc htail => exact List.Forall₂.cons (relOutside_trans hab hbc) (ih htail)

theorem forall₂_relOutside_mono {S S' : List Str} (hsub : ∀ x ∈ S, x ∈ S') :
    ∀ {l l' : List TNode}, List.Forall₂ (relOutside S) l l' →
      List.Forall₂ (relOutside S') l l' := by
  intro l l' h
  induction h with
  | nil => constructor
  | cons hab _ ih => exact List.Forall₂.cons (relOutside_mono hsub hab) ih

theorem forall₂_mem_right {R : TNode → TNode → Prop} :
    ∀ {l l' : List TNode}, List.Forall₂ R l l' → ∀ b ∈ l', ∃ a ∈ l, R a b := by
  intro l l' h
  induction h with
  | nil => intro b hb; cases hb
  | @cons x y xs ys hxy _ ih =>
    intro b hb
    cases hb with
    | head => exact ⟨x, List.mem_cons_self x xs, hxy⟩
    | tail _ hb' =>
      obtain ⟨a, ha, har⟩ := ih b hb'
      exact ⟨a, List.mem_cons_of_mem x ha, har⟩

theorem relOutside_setExpanded (t : TreeView) (nid : Str) (b : Bool)
    {S : List Str} (hmem : nid ∈ S) :
    List.Forall₂ (relOutside S) t.nodes (setExpanded t nid b).nodes := by
  unfold setExpanded
  dsimp only
  induction t.nodes with
  | nil => constructor
  | cons a as ih =>
    rw [List.map_cons]
    refine List.Forall₂.cons ?_ ih
    by_cases ha : a.nodeid == nid
    · rw [if_pos ha]
      refine ⟨rfl, fun hn => ?_⟩
      have : a.nodeid = nid := by simpa using ha
      rw [this] at hn
      exact absurd hmem hn
    · rw [if_neg ha]
      exact relOutside_refl S a

theorem relOutside_expand_node (t : TreeView) (nid : Str) {S : List Str}
    (hmem : nid ∈ S) :
    List.Forall₂ (relOutside S) t.nodes (expand_node t nid).2.nodes := by
  unfold expand_node
  cases hg : get_item_by_nodeid t nid with
  | error e => exact forall₂_relOutside_refl S t.nodes
  | ok node =>
    by_cases h1 : is_expandable node = true
    · simp only [h1]
      by_cases h2 : is_collapsed node = true
      · simp only [h2]
        cases hg2 : get_item_by_nodeid (setExpanded t nid node.willExpand) nid with
        | error e =>
          simpa using relOutside_setExpanded t nid node.willExpand hmem
        | ok n1 =>
          by_cases h3 : is_expanded n1 = true <;>
            simp [h2, hg2, h3, relOutside_setExpanded t nid node.willExpand hmem]
      · simp only [h2]
        simp at h2
        simp [h2]
        intro x _
        exact relOutside_refl S x
    · simp at h1
      simp [h1]
      intro x _
      exact relOutside_refl S x

theorem relOutside_collapse_node (t : TreeView) (nid : Str) {S : List Str}
    (hmem : nid ∈ S) :
    List.Forall₂ (relOutside S) t.nodes (collapse_node t nid).2.nodes := by
  unfold collapse_node
  cases hg : get_item_by_nodeid t nid with
  | error e => exact forall₂_relOutside_refl S t.nodes
  | ok node =>
    by_cases h1 : is_expandable node = true
    · simp only [h1]
      by_cases h2 : is_expanded node = true
      · simp only [h2]
        cases hg2 : get_item_by_nodeid (setExpanded t nid (!node.willCollapse)) nid with
        | error e =>
          simpa using relOutside_setExpanded t nid (!node.willCollapse) hmem
        | ok n1 =>
          by_cases h3 : is_collapsed n1 = true <;>
            simp [h2, hg2, h3, relOutside_setExpanded t nid (!node.willCollapse) hmem]
      · simp only [h2]
        simp at h2
        simp [h2]
        intro x _
        exact relOutside_refl S x
    · simp at h1
      simp [h1]
      intro x _
      exact relOutside_refl S x

theorem lookupNode_mem {t : TreeView} {nid : Str} {n : TNode}
    (h : lookupNode t nid = some n) : n ∈ t.nodes ∧ n.nodeid = nid := by
  refine ⟨List.mem_of_find?_eq_some h, ?_⟩
  have hp := @List.find?_some TNode (fun k => k.nodeid == nid) n t.nodes h
  simpa using hp

theorem unique_find?_eq_some :
    ∀ (l : List TNode), (l.map (fun n => n.nodeid)).Nodup →
      ∀ m ∈ l, l.find? (fun k => k.nodeid == m.nodeid) = some m := by
  intro l
  induction l with
  | nil =>
    intro _ m hm
    cases hm
  | cons a as ih =>
    intro hnd m hm
    rw [List.map_cons, List.nodup_cons] at hnd
    cases hm with
    | head =>
      rw [List.find?_cons_of_pos _ (by simp)]
    | tail _ hm' =>
      have hne : (a.nodeid == m.nodeid) = false := by
        have : m.nodeid ∈ as.map (fun n => n.nodeid) :=
          List.mem_map_of_mem (fun n => n.nodeid) hm'
        by_cases he : a.nodeid = m.nodeid
        · rw [he] at hnd
          exact absurd this hnd.1
        · simpa using he
      rw [List.find?_cons_of_neg _ (by simp [hne])]
      exact ih hnd.2 m hm'

/-- With unique nodeids, a member of the node list is exactly what
`get_item_by_nodeid` locates for its nodeid. -/
theorem unique_mem_lookup {t : TreeView} (hu : UniqueIds t) {m : TNode}
    (hm : m ∈ t.nodes) : lookupNode t m.nodeid = some m :=
  unique_find?_eq_some t.nodes hu m hm

theorem mem_setExpanded {t : TreeView} {nid : Str} {b : Bool} {m : TNode}
    (hm : m ∈ (setExpanded t nid b).nodes) :
    (m.nodeid = nid → m.expanded = b) ∧ (m.nodeid ≠ nid → m ∈ t.nodes) := by
  unfold setExpanded at hm
  dsimp only at hm
  rw [List.mem_map] at hm
  obtain ⟨a, ha, hma⟩ := hm
  by_cases hcase : a.nodeid == nid
  · rw [if_pos hcase] at hma
    constructor
    · intro _
      rw [← hma]
    · intro hne
      rw [← hma] at hne
      simp at hne hcase
      exact absurd hcase hne
  · rw [if_neg hcase] at hma
    rw [← hma]
    exact ⟨fun he => absurd (by simpa using he) (by simpa using hcase), fun _ => ha⟩

/-- What a successful `collapse_node` guarantees: the addressed node ends
collapsed whenever it is expandable, and elements with other nodeids are
untouched members of the original list. -/
theorem collapse_node_ok_post {t : TreeView} {nid : Str} {b : Bool} {t3 : TreeView}
    (hu : UniqueIds t) (h : collapse_node t nid = (.ok b, t3)) :
    (∀ m ∈ t3.nodes, m.nodeid = nid → m.expandable = true → m.expanded = false)
  ∧ (∀ m ∈ t3.nodes, m.nodeid ≠ nid → m ∈ t.nodes) := by
  unfold collapse_node at h
  cases hg : get_item_by_nodeid t nid with
  | error e =>
    rw [hg] at h
    cases h
  | ok node =>
    rw [hg] at h
    have hnode : lookupNode t nid = some node := by
      unfold get_item_by_nodeid at hg
      cases hl : lookupNode t nid with
      | none =>
        rw [hl] at hg
        cases hg
      | some k =>
        rw [hl] at hg
        cases hg
        rfl
    dsimp only at h
    by_cases h1 : is_expandable node = true
    · rw [if_neg (by simp [h1])] at h
      by_cases h2 : is_expanded node = true
      · rw [if_pos h2] at h
        have hl1 := lookupNode_setExpanded_self (!node.willCollapse) hnode
        rw [show get_item_by_nodeid (setExpanded t nid (!node.willCollapse)) nid =
            .ok { node with expanded := !node.willCollapse } by
          unfold get_item_by_nodeid
          rw [hl1]] at h
        dsimp only at h
        by_cases h3 : is_collapsed { node with expanded := !node.willCollapse } = true
        · rw [if_pos h3] at h
          injection h with h4 h5
          have hwc : (!node.willCollapse) = false := by
            unfold is_collapsed is_expanded at h3
            simpa using h3
          subst h5
          rw [hwc]
          constructor
          · intro m hm hmn _
            exact (mem_setExpanded hm).1 hmn
          · intro m hm hmn
            exact (mem_setExpanded hm).2 hmn
        · rw [if_neg h3] at h
          cases h
      · rw [if_neg h2] at h
        injection h with h4 h5
        subst h5
        constructor
        · intro m hm hmn _
          have hlm := unique_mem_lookup hu hm
          rw [hmn, hnode] at hlm
          injection hlm with hlm'
          rw [← hlm']
          simpa using h2
        · intro m hm _
          exact hm
    · have h1f : is_expandable node = false := by simpa using h1
      rw [if_pos (by simp [h1f])] at h
      injection h with h4 h5
      subst h5
      constructor
      · intro m hm hmn hmexp
        have hlm := unique_mem_lookup hu hm
        rw [hmn, hnode] at hlm
        injection hlm with hlm'
        rw [hlm'] at h1f
        unfold is_expandable at h1f
        rw [hmexp] at h1f
        exact absurd h1f (by simp)
      · intro m hm _
        exact hm

/-- The traversal touches (at most the expansion flag of) only nodes whose
nodeid lies in the visited set. -/
theorem modifies_subtree (fuel : Nat) :
    (∀ (t : TreeView) (nid : Str) (incl col : Bool),
       List.Forall₂ (relOutside (subtreeN fuel t nid)) t.nodes
         (read_contents fuel t (some nid) incl col).2.nodes)
  ∧ (∀ (t : TreeView) (cs : List TNode) (incl col : Bool),
       List.Forall₂ (relOutside (subtreeList fuel t cs)) t.nodes
         (read_children fuel t cs incl col).2.nodes) := by
  induction fuel with
  | zero =>
    constructor
    · intro t nid incl col
      exact forall₂_relOutside_refl _ _
    · intro t cs incl col
      cases cs <;> exact forall₂_relOutside_refl _ _
  | succ fuel ih =>
    obtain ⟨ihN, ihL⟩ := ih
    constructor
    · intro t nid incl col
      simp only [read_contents, get_item_by_nodeid, subtreeN]
      cases hi : lookupNode t nid with
      | none => exact forall₂_relOutside_refl _ _
      | some item =>
        dsimp only
        rcases he : expand_node t nid with ⟨re, t1⟩
        have hmemS : nid ∈
            nid :: subtreeList fuel t (childNodes t (get_nodeid item) (indents item)) :=
          List.mem_cons_self _ _
        have m1 : List.Forall₂
            (relOutside (nid :: subtreeList fuel t (childNodes t (get_nodeid item) (indents item))))
            t.nodes t1.nodes := by
          have hr := relOutside_expand_node t nid hmemS
          rw [he] at hr
          exact hr
        have hshape1 : sameShape t t1 := by
          have hs := sameShape_expand_node t nid
          rw [he] at hs
          exact hs
        cases re with
        | error e => exact m1
        | ok bb =>
          dsimp only
          rcases hc : read_children fuel t1
              (childNodes t1 (get_nodeid item) (indents item)) incl col with ⟨rc, t2⟩
          have hsub : subtreeList fuel t1 (childNodes t1 (get_nodeid item) (indents item)) =
              subtreeList fuel t (childNodes t (get_nodeid item) (indents item)) :=
            (subtree_shape fuel).2 t1 t (sameShape_symm hshape1) _ _
              (childNodes_shape (sameShape_symm hshape1) (get_nodeid item) (indents item))
          have m2 : List.Forall₂
              (relOutside (nid :: subtreeList fuel t (childNodes t (get_nodeid item) (indents item))))
              t1.nodes t2.nodes := by
            have hr := ihL t1 (childNodes t1 (get_nodeid item) (indents item)) incl col
            rw [hc] at hr
            refine forall₂_relOutside_mono ?_ hr
            intro x hx
            rw [hsub] at hx
            exact List.mem_cons_of_mem _ hx
          cases rc with
          | error e => exact forall₂_relOutside_trans m1 m2
          | ok kids =>
            dsimp only
            rcases hk : (if col then collapse_node t2 nid else (.ok true, t2)) with ⟨rk, t3⟩
            have m3 : List.Forall₂
                (relOutside (nid :: subtreeList fuel t (childNodes t (get_nodeid item) (indents item))))
                t2.nodes t3.nodes := by
              by_cases hcol : col
              · rw [if_pos hcol] at hk
                have hr := relOutside_collapse_node t2 nid hmemS
                rw [hk] at hr
                exact hr
              · rw [if_neg hcol] at hk
                injection hk with hk1 hk2
                subst hk2
                exact forall₂_relOutside_refl _ _
            cases rk with
            | error e => exact forall₂_relOutside_trans m1 (forall₂_relOutside_trans m2 m3)
            | ok b2 =>
              dsimp only
              cases kids with
              | nil => exact forall₂_relOutside_trans m1 (forall₂_relOutside_trans m2 m3)
              | cons k ks =>
                exact forall₂_relOutside_trans m1 (forall₂_relOutside_trans m2 m3)
    · intro t cs incl col
      cases cs with
      | nil => exact forall₂_relOutside_refl _ _
      | cons c cs' =>
        simp only [read_children, subtreeList]
        rcases h1 : read_contents fuel t (some (get_nodeid c)) incl col with ⟨r1, t1⟩
        have m1 : List.Forall₂
            (relOutside (subtreeN fuel t (get_nodeid c) ++ subtreeList fuel t cs'))
            t.nodes t1.nodes := by
          have hr := ihN t (get_nodeid c) incl col
          rw [h1] at hr
          refine forall₂_relOutside_mono ?_ hr
          intro x hx
          exact List.mem_append_left _ hx
        have hshape1 : sameShape t t1 := by
          have hs := (sameShape_read fuel).1 t (some (get_nodeid c)) incl col
          rw [h1] at hs
          exact hs
        cases r1 with
        | error e => exact m1
        | ok v =>
          dsimp only
          rcases h2 : read_children fuel t1 cs' incl col with ⟨r2, t2⟩
          have hsub : subtreeList fuel t1 cs' = subtreeList fuel t cs' :=
            (subtree_shape fuel).2 t1 t (sameShape_symm hshape1) _ _
              (forall₂_shape_refl cs')
          have m2 : List.Forall₂
              (relOutside (subtreeN fuel t (get_nodeid c) ++ subtreeList fuel t cs'))
              t1.nodes t2.nodes := by
            have hr := ihL t1 cs' incl col
            rw [h2] at hr
            refine forall₂_relOutside_mono ?_ hr
            intro x hx
            rw [hsub] at hx
            exact List.mem_append_right _ hx
          cases r2 with
          | error e => exact forall₂_relOutside_trans m1 m2
          | ok vs => exact forall₂_relOutside_trans m1 m2

/-- After a successful `read_contents(collapse_after_read=True)` every
visited node that is expandable ends up collapsed — including nodes that
were expanded before the call. -/
theorem collapse_after_read (fuel : Nat) :
    (∀ (t : TreeView) (nid : Str) (incl : Bool) (v : Contents) (t' : TreeView),
       UniqueIds t →
       read_contents fuel t (some nid) incl true = (.ok v, t') →
       ∀ m ∈ t'.nodes, m.nodeid ∈ subtreeN fuel t nid → m.expandable = true →
         m.expanded = false)
  ∧ (∀ (t : TreeView) (cs : List TNode) (incl : Bool) (vs : List Contents)
        (t' : TreeView),
       UniqueIds t →
       read_children fuel t cs incl true = (.ok vs, t') →
       ∀ m ∈ t'.nodes, m.nodeid ∈ subtreeList fuel t cs → m.expandable = true →
         m.expanded = false) := by
  induction fuel with
  | zero =>
    constructor
    · intro t nid incl v t' _ h
      injection h with hA hB
      exact Except.noConfusion hA
    · intro t cs incl vs t' _ h
      cases cs with
      | nil =>
        intro m hm hmS hmexp
        cases hmS
      | cons c cs' =>
        injection h with hA hB
        exact Except.noConfusion hA
  | succ fuel ih =>
    obtain ⟨ihN, ihL⟩ := ih
    constructor
    · intro t nid incl v t' hu h
      simp only [read_contents, get_item_by_nodeid] at h
      simp only [subtreeN]
      cases hi : lookupNode t nid with
      | none =>
        rw [hi] at h
        dsimp only at h
        injection h with hA hB
        exact Except.noConfusion hA
      | some item =>
        rw [hi] at h
        dsimp only at h
        rcases he : expand_node t nid with ⟨re, t1⟩
        rw [he] at h
        have hshape1 : sameShape t t1 := by
          have hs := sameShape_expand_node t nid
          rw [he] at hs
          exact hs
        have hu1 : UniqueIds t1 := sameShape_uniqueIds hshape1 hu
        cases re with
        | error e =>
          dsimp only at h
          injection h with hA hB
          exact Except.noConfusion hA
        | ok bb =>
          dsimp only at h
          rcases hc : read_children fuel t1
              (childNodes t1 (get_nodeid item) (indents item)) incl true with ⟨rc, t2⟩
          rw [hc] at h
          have hshape2 : sameShape t1 t2 := by
            have hs := (sameShape_read fuel).2 t1
              (childNodes t1 (get_nodeid item) (indents item)) incl true
            rw [hc] at hs
            exact hs
          have hu2 : UniqueIds t2 := sameShape_uniqueIds hshape2 hu1
          cases rc with
          | error e =>
            dsimp only at h
            injection h with hA hB
            exact Except.noConfusion hA
          | ok kids =>
            dsimp only at h
            rcases hk : collapse_node t2 nid with ⟨rk, t3⟩
            rw [hk] at h
            cases rk with
            | error e =>
              injection h with hA hB
              exact Except.noConfusion hA
            | ok b2 =>
              have ht' : t' = t3 := by
                cases kids with
                | nil =>
                  injection h with hA hB
                  exact hB.symm
                | cons k ks =>
                  injection h with hA hB
                  exact hB.symm
              subst ht'
              intro m hm hmS hmexp
              by_cases hcase : m.nodeid = nid
              · exact (collapse_node_ok_post hu2 hk).1 m hm hcase hmexp
              · rcases List.mem_cons.mp hmS with h' | h'
                · exact absurd h' hcase
                · have hm2 : m ∈ t2.nodes := (collapse_node_ok_post hu2 hk).2 m hm hcase
                  have hsub : subtreeList fuel t (childNodes t (get_nodeid item) (indents item)) =
                      subtreeList fuel t1 (childNodes t1 (get_nodeid item) (indents item)) :=
                    (subtree_shape fuel).2 t t1 hshape1 _ _
                      (childNodes_shape hshape1 (get_nodeid item) (indents item))
                  exact ihL t1 (childNodes t1 (get_nodeid item) (indents item)) incl kids t2
                    hu1 hc m hm2 (by rw [← hsub]; exact h') hmexp
    · intro t cs incl vs t' hu h
      cases cs with
      | nil =>
        intro m hm hmS hmexp
        cases hmS
      | cons c cs' =>
        simp only [read_children] at h
        simp only [subtreeList]
        rcases h1 : read_contents fuel t (some (get_nodeid c)) incl true with ⟨r1, t1⟩
        rw [h1] at h
        have hshape1 : sameShape t t1 := by
          have hs := (sameShape_read fuel).1 t (some (get_nodeid c)) incl true
          rw [h1] at hs
          exact hs
        have hu1 : UniqueIds t1 := sameShape_uniqueIds hshape1 hu
        cases r1 with
        | error e =>
          dsimp only at h
          injection h with hA hB
          exact Except.noConfusion hA
        | ok v1 =>
          dsimp only at h
          rcases h2 : read_children fuel t1 cs' incl true with ⟨r2, t2⟩
          rw [h2] at h
          cases r2 with
          | error e =>
            dsimp only at h
            injection h with hA hB
            exact Except.noConfusion hA
          | ok vs1 =>
            dsimp only at h
            injection h with hA hB
            subst hB
            intro m hm hmS hmexp
            have hsub : subtreeList fuel t1 cs' = subtreeList fuel t cs' :=
              (subtree_shape fuel).2 t1 t (sameShape_symm hshape1) _ _
                (forall₂_shape_refl cs')
            rcases List.mem_append.mp hmS with hin | hin
            · by_cases hin2 : m.nodeid ∈ subtreeList fuel t1 cs'
              · exact ihL t1 cs' incl vs1 t2 hu1 h2 m hm hin2 hmexp
              · have hM := (modifies_subtree fuel).2 t1 cs' incl true
                rw [h2] at hM
                obtain ⟨a, ha, hrel⟩ := forall₂_mem_right hM m hm
                have haid : a.nodeid = m.nodeid := (stripNode_fields hrel.1).1
                have hae : a = m := hrel.2 (by rw [haid]; exact hin2)
                rw [hae] at ha
                exact ihN t (get_nodeid c) incl v1 t1 hu h1 m ha hin hmexp
            · exact ihL t1 cs' incl vs1 t2 hu1 h2 m hm (by rw [hsub]; exact hin) hmexp

/-- C4 (amended): a successful `read_contents(collapse_after_read=True)`
leaves every visited expandable node collapsed — including branches that
were already expanded before the call, so the pre-call expansion state is in
general *not* restored — while nodes outside the visited subtree keep their
state (and visited ones change at most their expansion flag). -/
theorem c4_read_contents_collapses_visited (fuel : Nat) (t : TreeView) (nid : Str)
    (incl : Bool) (v : Contents) (t' : TreeView)
    (hu : UniqueIds t)
    (h : read_contents fuel t (some nid) incl true = (.ok v, t')) :
    (∀ m ∈ t'.nodes, m.nodeid ∈ subtreeN fuel t nid → m.expandable = true →
        m.expanded = false)
  ∧ List.Forall₂ (fun a b => stripNode a = stripNode b ∧
        (¬ a.nodeid ∈ subtreeN fuel t nid → a = b)) t.nodes t'.nodes := by
  constructor
  · exact (collapse_after_read fuel).1 t nid incl v t' hu h
  · have hm := (modifies_subtree fuel).1 t nid incl true
    rw [h] at hm
    exact hm

/-- C4 witness: on `exT4` (whose root starts expanded) the traversal leaves
the root collapsed. -/
theorem c4_read_contents_collapses_visited_witness :
    UniqueIds exT4
  ∧ ({ mkN "1" "Root" 0 true true with expanded := false } : TNode).expanded = false := by
  refine ⟨by unfold UniqueIds; decide, ?_⟩
  exact (c4_read_contents_collapses_visited 4 exT4 ("1".data) false
    (Contents.branch (.leafT ("Root".data)) [.leafT ("Kid".data)])
    (setExpanded exT4 ("1".data) false) (by unfold UniqueIds; decide) rfl).1
    { mkN "1" "Root" 0 true true with expanded := false } (by decide) (by decide) (by decide)

/-! ## C8: checkbox toggling

Machinery: a successful `expand_path` only switches expansion flags *on*
(`nodeUp`/`treeUp` below), so re-running the same path on the resulting tree
is a no-op returning the same leaf; and `expand_path` never reads checkbox
state, so toggling a checkbox commutes with path resolution.  Both facts
combined settle the `check`/`uncheck`/`node_checked` interaction. -/

def nodeUp (a b : TNode) : Prop := b = a ∨ b = { a with expanded := true }

theorem nodeUp_refl (a : TNode) : nodeUp a a := Or.inl rfl

theorem nodeUp_trans {a b c : TNode} (h1 : nodeUp a b) (h2 : nodeUp b c) :
    nodeUp a c := by
  cases h1 with
  | inl h1 =>
    rw [h1] at h2
    exact h2
  | inr h1 =>
    cases h2 with
    | inl h2 => rw [h2, h1]; exact Or.inr rfl
    | inr h2 => rw [h2, h1]; exact Or.inr rfl

theorem nodeUp_strip {a b : TNode} (h : nodeUp a b) : stripNode b = stripNode a := by
  cases h with
  | inl h => rw [h]
  | inr h => rw [h]; rfl

theorem nodeUp_expanded {a b : TNode} (h : nodeUp a b) (ha : a.expanded = true) :
    b.expanded = true := by
  cases h with
  | inl h => rw [h]; exact ha
  | inr h => rw [h]

def treeUp (t u : TreeView) : Prop :=
  t.treeId = u.treeId ∧ List.Forall₂ nodeUp t.nodes u.nodes

theorem forall₂_nodeUp_refl (l : List TNode) : List.Forall₂ nodeUp l l := by
  induction l with
  | nil => constructor
  | cons a as ih => exact List.Forall₂.cons (nodeUp_refl a) ih

theorem forall₂_nodeUp_trans :
    ∀ {l1 l2 l3 : List TNode}, List.Forall₂ nodeUp l1 l2 →
      List.Forall₂ nodeUp l2 l3 → List.Forall₂ nodeUp l1 l3 := by
  intro l1 l2 l3 h1
  induction h1 generalizing l3 with
  | nil =>
    intro h2
    cases h2
    constructor
  | cons hab _ ih =>
    intro h2
    cases h2 with
    | cons hbc htail => exact List.Forall₂.cons (nodeUp_trans hab hbc) (ih htail)

theorem treeUp_refl (t : TreeView) : treeUp t t := ⟨rfl, forall₂_nodeUp_refl t.nodes⟩

theorem treeUp_trans {t u v : TreeView} (h1 : treeUp t u) (h2 : treeUp u v) :
    treeUp t v := ⟨h1.1.trans h2.1, forall₂_nodeUp_trans h1.2 h2.2⟩

theorem treeUp_sameShape {t u : TreeView} (h : treeUp t u) : sameShape t u :=
  ⟨h.1, map_strip_eq_forall₂.mpr (h.2.imp (fun a b hab => (nodeUp_strip hab).symm))⟩

theorem treeUp_uniqueIds {t u : TreeView} (h : treeUp t u) (hu : UniqueIds t) :
    UniqueIds u := sameShape_uniqueIds (treeUp_sameShape h) hu

theorem find?_rel {R : TNode → TNode → Prop} {p : TNode → Bool}
    (hp : ∀ a b, R a b → p a = p b) :
    ∀ {l l' : List TNode}, List.Forall₂ R l l' →
      (l.find? p = none ∧ l'.find? p = none) ∨
        (∃ a b, l.find? p = some a ∧ l'.find? p = some b ∧ R a b) := by
  intro l l' h
  induction h with
  | nil => exact Or.inl ⟨rfl, rfl⟩
  | @cons a b as bs hab _ ih =>
    by_cases hpa : p a = true
    · refine Or.inr ⟨a, b, ?_, ?_, hab⟩
      · rw [List.find?_cons_of_pos _ hpa]
      · rw [List.find?_cons_of_pos _ (by rw [← hp _ _ hab]; exact hpa)]
    · rw [List.find?_cons_of_neg _ hpa,
        List.find?_cons_of_neg _ (by rw [← hp _ _ hab]; exact hpa)]
      exact ih

theorem filter_forall₂_rel {R : TNode → TNode → Prop} {p : TNode → Bool}
    (hp : ∀ a b, R a b → p a = p b) :
    ∀ {l l' : List TNode}, List.Forall₂ R l l' →
      List.Forall₂ R (l.filter p) (l'.filter p) := by
  intro l l' h
  induction h with
  | nil => constructor
  | @cons a b as bs hab _ ih =>
    by_cases hpa : p a = true
    · rw [List.filter_cons_of_pos hpa,
        List.filter_cons_of_pos (by rw [← hp _ _ hab]; exact hpa)]
      exact List.Forall₂.cons hab ih
    · rw [List.filter_cons_of_neg hpa,
        List.filter_cons_of_neg (by rw [← hp _ _ hab]; exact hpa)]
      exact ih

theorem validate_node_nodeUp {a b : TNode} (h : nodeUp a b) (m : Matcher)
    (img : Option Str) : validate_node a m img = validate_node b m img := by
  obtain ⟨h1, h2, h3, h4, h5, h6, h7, h8, h9, h10⟩ := stripNode_fields (nodeUp_strip h)
  unfold validate_node image_getter
  rw [h2, h6]

theorem mem_eq_of_uniqueIds {t : TreeView} (hu : UniqueIds t) {a b : TNode}
    (ha : a ∈ t.nodes) (hb : b ∈ t.nodes) (hid : a.nodeid = b.nodeid) : a = b := by
  have la := unique_mem_lookup hu ha
  have lb := unique_mem_lookup hu hb
  rw [hid, lb] at la
  injection la with la'
  exact la'.symm

theorem node_eta_expanded {n : TNode} {b : Bool} (h : n.expanded = b) :
    { n with expanded := b } = n := by
  cases n
  dsimp only at h
  subst h
  rfl

theorem forall₂_map_of_mem {R : TNode → TNode → Prop} {f : TNode → TNode} :
    ∀ {l : List TNode}, (∀ a ∈ l, R a (f a)) → List.Forall₂ R l (l.map f) := by
  intro l
  induction l with
  | nil =>
    intro _
    constructor
  | cons a as ih =>
    intro h
    rw [List.map_cons]
    exact List.Forall₂.cons (h a (List.mem_cons_self a as))
      (ih (fun x hx => h x (List.mem_cons_of_mem a hx)))

theorem treeUp_setExpanded_of_collapsed {t : TreeView} {nid : Str} {node : TNode}
    (hu : UniqueIds t) (hl : lookupNode t nid = some node)
    (hcol : node.expanded = false) (b : Bool) :
    treeUp t (setExpanded t nid b) := by
  refine ⟨rfl, ?_⟩
  unfold setExpanded
  dsimp only
  apply forall₂_map_of_mem
  intro a ha
  by_cases hc : a.nodeid == nid
  · rw [if_pos hc]
    have hmemn := (lookupNode_mem hl).1
    have hidn := (lookupNode_mem hl).2
    have han : a = node :=
      mem_eq_of_uniqueIds hu ha hmemn (by rw [hidn]; simpa using hc)
    subst han
    cases b with
    | false => exact Or.inl (node_eta_expanded hcol)
    | true => exact Or.inr rfl
  · rw [if_neg hc]
    exact nodeUp_refl a

theorem treeUp_expand_node (t : TreeView) (nid : Str) (hu : UniqueIds t) :
    treeUp t (expand_node t nid).2 := by
  unfold expand_node get_item_by_nodeid
  cases hl : lookupNode t nid with
  | none => exact treeUp_refl t
  | some node =>
    dsimp only
    by_cases h1 : is_expandable node = true
    · rw [if_neg (by simp [h1])]
      by_cases h2 : is_collapsed node = true
      · rw [if_pos h2]
        have hcol : node.expanded = false := by
          unfold is_collapsed is_expanded at h2
          simpa using h2
        have ht := treeUp_setExpanded_of_collapsed hu hl hcol node.willExpand
        cases hg2 : lookupNode (setExpanded t nid node.willExpand) nid with
        | none => exact ht
        | some n1 =>
          dsimp only
          by_cases h3 : is_expanded n1 = true <;> simp [h3] <;> exact ht
      · rw [if_neg h2]
        exact treeUp_refl t
    · have h1f : is_expandable node = false := by simpa using h1
      rw [if_pos (by simp [h1f])]
      exact treeUp_refl t

theorem expand_node_of_expanded {t : TreeView} {nid : Str} {n : TNode}
    (hl : lookupNode t nid = some n) (he1 : n.expandable = true)
    (he2 : n.expanded = true) : expand_node t nid = (.ok true, t) := by
  unfold expand_node get_item_by_nodeid
  rw [hl]
  dsimp only
  rw [if_neg (by simp [is_expandable, he1])]
  rw [if_neg (by simp [is_collapsed, is_expanded, he2])]

theorem expand_node_ok_post {t : TreeView} {nid : Str} {t1 : TreeView}
    (h : expand_node t nid = (.ok true, t1)) :
    ∃ n1, lookupNode t1 nid = some n1 ∧ n1.expandable = true ∧ n1.expanded = true := by
  unfold expand_node get_item_by_nodeid at h
  cases hl : lookupNode t nid with
  | none =>
    rw [hl] at h
    dsimp only at h
    injection h with hA hB
    exact Except.noConfusion hA
  | some node =>
    rw [hl] at h
    dsimp only at h
    by_cases h1 : is_expandable node = true
    · rw [if_neg (by simp [h1])] at h
      by_cases h2 : is_collapsed node = true
      · rw [if_pos h2] at h
        have hl1 := lookupNode_setExpanded_self node.willExpand hl
        rw [hl1] at h
        dsimp only at h
        by_cases h3 : is_expanded { node with expanded := node.willExpand } = true
        · rw [if_pos h3] at h
          injection h with hA hB
          subst hB
          refine ⟨{ node with expanded := node.willExpand }, hl1, ?_, ?_⟩
          · simpa using h1
          · unfold is_expanded at h3
            simpa using h3
        · rw [if_neg h3] at h
          injection h with hA hB
          exact Except.noConfusion hA
      · rw [if_neg h2] at h
        injection h with hA hB
        subst hB
        refine ⟨node, hl, by simpa using h1, ?_⟩
        unfold is_collapsed is_expanded at h2
        simpa using h2
    · have h1f : is_expandable node = false := by simpa using h1
      rw [if_pos (by simp [h1f])] at h
      injection h with hA hB
      injection hA with hA'
      exact Bool.noConfusion hA'

/-- A run of the `expand_path` loop only ever switches expansion flags on. -/
theorem expandSteps_treeUp (rest : List Step) :
    ∀ (t : TreeView) (node : Option TNode) (pathRepr : Str) (tried : List Step),
      UniqueIds t → treeUp t (expandSteps t node rest pathRepr tried).2 := by
  induction rest with
  | nil =>
    intro t node pathRepr tried _
    exact treeUp_refl t
  | cons step rs ih =>
    intro t node pathRepr tried hu
    simp only [expandSteps]
    rcases hE : expandCurrent t node step pathRepr (tried ++ [step]) with ⟨r0, t1⟩
    have ht1 : treeUp t t1 := by
      unfold expandCurrent at hE
      cases node with
      | none =>
        injection hE with hA hB
        subst hB
        exact treeUp_refl t
      | some n =>
        dsimp only at hE
        rcases hx : expand_node t (get_nodeid n) with ⟨rx, tx⟩
        rw [hx] at hE
        have htx : treeUp t tx := by
          have := treeUp_expand_node t (get_nodeid n) hu
          rw [hx] at this
          exact this
        cases rx with
        | error e =>
          injection hE with hA hB
          subst hB
          exact htx
        | ok bb =>
          cases bb with
          | true =>
            injection hE with hA hB
            subst hB
            exact htx
          | false =>
            injection hE with hA hB
            subst hB
            exact htx
    have hu1 : UniqueIds t1 := treeUp_uniqueIds ht1 hu
    cases r0 with
    | error e => exact ht1
    | ok u =>
      dsimp only
      cases hf : (match step.matcher with
          | .lit s => child_items_with_text t1 node s
          | .regex _ => child_items t1 node).find?
            (fun c => validate_node c step.matcher step.image) with
      | none =>
        dsimp only
        cases hg : tried.getLast? with
        | some prev => exact ht1
        | none => exact ht1
      | some c =>
        dsimp only
        exact treeUp_trans ht1 (ih t1 (some c) pathRepr (tried ++ [step]) hu1)

/-- Elements produced by the per-step child query are elements of the tree. -/
theorem mem_of_children {t : TreeView} {node : Option TNode} {m : Matcher} {x : TNode}
    (hx : x ∈ (match m with
      | .lit s => child_items_with_text t node s
      | .regex _ => child_items t node)) : x ∈ t.nodes := by
  cases m with
  | lit s =>
    cases node with
    | none =>
      unfold child_items_with_text root_items at hx
      exact List.mem_of_mem_filter (List.mem_of_mem_filter hx)
    | some n =>
      unfold child_items_with_text childNodes at hx
      exact List.mem_of_mem_filter (List.mem_of_mem_filter hx)
  | regex p =>
    cases node with
    | none =>
      unfold child_items root_items at hx
      exact List.mem_of_mem_filter hx
    | some n =>
      unfold child_items childNodes at hx
      exact List.mem_of_mem_filter hx

theorem child_items_up {t u : TreeView} (htu : treeUp t u) :
    ∀ {node nodeu : Option TNode},
      ((node = none ∧ nodeu = none) ∨
        (∃ a b, node = some a ∧ nodeu = some b ∧ a.nodeid = b.nodeid ∧
          a.indents = b.indents)) →
      List.Forall₂ nodeUp (child_items t node) (child_items u nodeu) := by
  intro node nodeu hcorr
  have hpred : ∀ (p : TNode → Bool), (∀ a b, nodeUp a b → p a = p b) →
      List.Forall₂ nodeUp (t.nodes.filter p) (u.nodes.filter p) :=
    fun p hp => filter_forall₂_rel hp htu.2
  rcases hcorr with ⟨h1, h2⟩ | ⟨a, b, h1, h2, hid, hind⟩
  · subst h1
    subst h2
    unfold child_items root_items
    exact hpred _ (fun a b hab => by
      rw [(stripNode_fields (nodeUp_strip hab)).2.2.2.1])
  · subst h1
    subst h2
    unfold child_items childNodes get_nodeid indents
    dsimp only
    rw [hid, hind]
    exact hpred _ (fun x y hxy => by
      obtain ⟨f1, -, -, f4, -⟩ := stripNode_fields (nodeUp_strip hxy)
      rw [f1, f4])

theorem child_items_with_text_up {t u : TreeView} (htu : treeUp t u) (s : Str) :
    ∀ {node nodeu : Option TNode},
      ((node = none ∧ nodeu = none) ∨
        (∃ a b, node = some a ∧ nodeu = some b ∧ a.nodeid = b.nodeid ∧
          a.indents = b.indents)) →
      List.Forall₂ nodeUp (child_items_with_text t node s)
        (child_items_with_text u nodeu s) := by
  intro node nodeu hcorr
  rcases hcorr with ⟨h1, h2⟩ | ⟨a, b, h1, h2, hid, hind⟩
  · subst h1
    subst h2
    unfold child_items_with_text root_items
    refine filter_forall₂_rel ?_ (filter_forall₂_rel ?_ htu.2)
    · intro x y hxy
      rw [(stripNode_fields (nodeUp_strip hxy)).2.1]
    · intro x y hxy
      rw [(stripNode_fields (nodeUp_strip hxy)).2.2.2.1]
  · subst h1
    subst h2
    unfold child_items_with_text childNodes get_nodeid indents
    dsimp only
    rw [hid, hind]
    refine filter_forall₂_rel ?_ (filter_forall₂_rel ?_ htu.2)
    · intro x y hxy
      obtain ⟨-, f2, f3, -⟩ := stripNode_fields (nodeUp_strip hxy)
      rw [f2, f3]
    · intro x y hxy
      obtain ⟨f1, -, -, f4, -⟩ := stripNode_fields (nodeUp_strip hxy)
      rw [f1, f4]

/-- When the first run's per-step child scan found `c`, the same scan on a
more-expanded tree (with the corresponding parent) finds exactly the current
version of `c`. -/
theorem children_up_find {t u : TreeView} (htu : treeUp t u) (huU : UniqueIds u)
    {node nodeu : Option TNode}
    (hcorr : (node = none ∧ nodeu = none) ∨
      (∃ a b, node = some a ∧ nodeu = some b ∧ a.nodeid = b.nodeid ∧
        a.indents = b.indents))
    (m : Matcher) (img : Option Str) {c : TNode}
    (hf : (match m with
        | .lit s => child_items_with_text t node s
        | .regex _ => child_items t node).find?
          (fun x => validate_node x m img) = some c) :
    ∃ b, (match m with
        | .lit s => child_items_with_text u nodeu s
        | .regex _ => child_items u nodeu).find?
          (fun x => validate_node x m img) = some b ∧ nodeUp c b ∧
      lookupNode u c.nodeid = some b := by
  cases m with
  | lit s =>
    dsimp only at hf ⊢
    have hforall := child_items_with_text_up htu s hcorr
    have hrel := @find?_rel nodeUp (fun x => validate_node x (.lit s) img)
      (fun a b hab => validate_node_nodeUp hab (.lit s) img) _ _ hforall
    rcases hrel with ⟨hn1, -⟩ | ⟨a, b, ha, hb, hab⟩
    · rw [hf] at hn1
      exact Option.noConfusion hn1
    · rw [hf] at ha
      injection ha with ha'
      subst ha'
      refine ⟨b, hb, hab, ?_⟩
      have hbmem : b ∈ u.nodes := by
        unfold child_items_with_text root_items at hb
        cases nodeu with
        | none =>
          exact List.mem_of_mem_filter (List.mem_of_mem_filter
            (List.mem_of_find?_eq_some hb))
        | some k =>
          unfold childNodes at hb
          exact List.mem_of_mem_filter (List.mem_of_mem_filter
            (List.mem_of_find?_eq_some hb))
      have hbid : b.nodeid = c.nodeid := (stripNode_fields (nodeUp_strip hab)).1
      have := unique_mem_lookup huU hbmem
      rw [hbid] at this
      exact this
  | regex p =>
    dsimp only at hf ⊢
    have hforall := child_items_up htu hcorr
    have hrel := @find?_rel nodeUp (fun x => validate_node x (.regex p) img)
      (fun a b hab => validate_node_nodeUp hab (.regex p) img) _ _ hforall
    rcases hrel with ⟨hn1, -⟩ | ⟨a, b, ha, hb, hab⟩
    · rw [hf] at hn1
      exact Option.noConfusion hn1
    · rw [hf] at ha
      injection ha with ha'
      subst ha'
      refine ⟨b, hb, hab, ?_⟩
      have hbmem : b ∈ u.nodes := by
        unfold child_items root_items at hb
        cases nodeu with
        | none => exact List.mem_of_mem_filter (List.mem_of_find?_eq_some hb)
        | some k =>
          unfold childNodes at hb
          exact List.mem_of_mem_filter (List.mem_of_find?_eq_some hb)
      have hbid : b.nodeid = c.nodeid := (stripNode_fields (nodeUp_strip hab)).1
      have := unique_mem_lookup huU hbmem
      rw [hbid] at this
      exact this

/-- The carried node is the element its nodeid locates (element identity). -/
def NodeCur (t : TreeView) (node : Option TNode) : Prop :=
  ∀ n, node = some n → lookupNode t n.nodeid = some n

/-- The current version of a carried element after further DOM updates. -/
def refreshN (t : TreeView) (n : TNode) : TNode := (lookupNode t n.nodeid).getD n

def refreshOpt (t : TreeView) (node : Option TNode) : Option TNode :=
  node.map (refreshN t)

/-- Re-running a successful `expand_path` loop on its own final tree is a
no-op: every node along the path is already expanded, the same children
match, and the same leaf (as it exists in the final tree) is produced. -/
theorem expandSteps_rerun (rest : List Step) :
    ∀ (t : TreeView) (node : Option TNode) (pathRepr : Str) (tried : List Step)
      (l : Option TNode) (t₂ : TreeView),
      UniqueIds t → NodeCur t node →
      expandSteps t node rest pathRepr tried = (.ok l, t₂) →
      expandSteps t₂ (refreshOpt t₂ node) rest pathRepr tried = (.ok l, t₂) ∧
        NodeCur t₂ l := by
  induction rest with
  | nil =>
    intro t node pathRepr tried l t₂ hu hcur h
    have h' : ((.ok node : Except WErr (Option TNode)), t) = (.ok l, t₂) := h
    injection h' with hA hB
    injection hA with hA'
    subst hA'
    subst hB
    have hrn : refreshOpt t node = node := by
      cases node with
      | none => rfl
      | some n =>
        unfold refreshOpt refreshN
        dsimp only [Option.map]
        rw [hcur n rfl]
        rfl
    rw [hrn]
    exact ⟨rfl, hcur⟩
  | cons step rs ih =>
    intro t node pathRepr tried l t₂ hu hcur h
    simp only [expandSteps] at h
    rcases hE : expandCurrent t node step pathRepr (tried ++ [step]) with ⟨r0, t1⟩
    rw [hE] at h
    cases r0 with
    | error e =>
      injection h with hA hB
      exact Except.noConfusion hA
    | ok u0 =>
      dsimp only at h
      cases hf : (match step.matcher with
          | .lit s => child_items_with_text t1 node s
          | .regex _ => child_items t1 node).find?
            (fun c => validate_node c step.matcher step.image) with
      | none =>
        rw [hf] at h
        dsimp only at h
        cases hg : tried.getLast? with
        | some prev =>
          rw [hg] at h
          injection h with hA hB
          exact Except.noConfusion hA
        | none =>
          rw [hg] at h
          injection h with hA hB
          exact Except.noConfusion hA
      | some c =>
        rw [hf] at h
        dsimp only at h
        -- establish the expand phase facts, by the shape of the current node
        cases node with
        | none =>
          -- no current node: the expand phase is skipped
          have hE' : ((.ok () : Except WErr Unit), t) = (.ok u0, t1) := hE
          injection hE' with hA1 hB1
          subst hB1
          have hcmem : c ∈ t.nodes := mem_of_children (List.mem_of_find?_eq_some hf)
          have hcur1 : NodeCur t (some c) := by
            intro k hk
            injection hk with hk'
            subst hk'
            exact unique_mem_lookup hu hcmem
          obtain ⟨hre, hcur₂⟩ := ih t (some c) pathRepr (tried ++ [step]) l t₂ hu hcur1 h
          have ht2 : treeUp t t₂ := by
            have := expandSteps_treeUp rs t (some c) pathRepr (tried ++ [step]) hu
            rw [h] at this
            exact this
          have hu2 : UniqueIds t₂ := treeUp_uniqueIds ht2 hu
          obtain ⟨b, hfb, hcb, hlb⟩ := children_up_find ht2 hu2
            (Or.inl ⟨rfl, rfl⟩) step.matcher step.image hf
          have hrn : refreshOpt t₂ (none : Option TNode) = none := rfl
          rw [hrn]
          simp only [expandSteps]
          rw [show expandCurrent t₂ none step pathRepr (tried ++ [step]) =
            ((.ok () : Except WErr Unit), t₂) from rfl]
          dsimp only
          rw [hfb]
          dsimp only
          have hrb : refreshOpt t₂ (some c) = some b := by
            unfold refreshOpt refreshN
            dsimp only [Option.map]
            rw [hlb]
            rfl
          rw [hrb] at hre
          exact ⟨hre, hcur₂⟩
        | some n =>
          -- the expand phase ran `expand_node` and must have returned True
          have hx1 : expand_node t (get_nodeid n) = (.ok true, t1) := by
            unfold expandCurrent at hE
            dsimp only at hE
            rcases hx : expand_node t (get_nodeid n) with ⟨rx, tx⟩
            rw [hx] at hE
            cases rx with
            | error e =>
              dsimp only at hE
              injection hE with hA1 hB1
              exact Except.noConfusion hA1
            | ok bb =>
              cases bb with
              | false =>
                dsimp only at hE
                injection hE with hA1 hB1
                exact Except.noConfusion hA1
              | true =>
                dsimp only at hE
                injection hE with hA1 hB1
                rw [hB1]
          have ht1 : treeUp t t1 := by
            have := treeUp_expand_node t (get_nodeid n) hu
            rw [hx1] at this
            exact this
          have hu1 : UniqueIds t1 := treeUp_uniqueIds ht1 hu
          have hcmem : c ∈ t1.nodes := mem_of_children (List.mem_of_find?_eq_some hf)
          have hcur1 : NodeCur t1 (some c) := by
            intro k hk
            injection hk with hk'
            subst hk'
            exact unique_mem_lookup hu1 hcmem
          obtain ⟨hre, hcur₂⟩ := ih t1 (some c) pathRepr (tried ++ [step]) l t₂ hu1 hcur1 h
          have ht12 : treeUp t1 t₂ := by
            have := expandSteps_treeUp rs t1 (some c) pathRepr (tried ++ [step]) hu1
            rw [h] at this
            exact this
          have ht02 : treeUp t t₂ := treeUp_trans ht1 ht12
          have hu2 : UniqueIds t₂ := treeUp_uniqueIds ht02 hu
          -- the current version of the carried parent in the final tree
          obtain ⟨n1, hn1l, hn1exp, hn1open⟩ := expand_node_ok_post hx1
          have hrel0 := @find?_rel nodeUp (fun k => k.nodeid == get_nodeid n)
            (fun a b hab => by
              have hx := (stripNode_fields (nodeUp_strip hab)).1
              dsimp only
              rw [hx]) _ _ ht1.2
          rcases hrel0 with ⟨hc0, -⟩ | ⟨a0, b0, ha0, hb0, hab0⟩
          · rw [show List.find? (fun k => k.nodeid == get_nodeid n) t.nodes =
                some n from hcur n rfl] at hc0
            exact Option.noConfusion hc0
          rw [show List.find? (fun k => k.nodeid == get_nodeid n) t.nodes =
              some n from hcur n rfl] at ha0
          injection ha0 with ha0'
          subst ha0'
          rw [show List.find? (fun k => k.nodeid == get_nodeid n) t1.nodes =
              lookupNode t1 (get_nodeid n) from rfl, hn1l] at hb0
          injection hb0 with hb0'
          subst hb0'
          have hrel := @find?_rel nodeUp (fun k => k.nodeid == get_nodeid n)
            (fun a b hab => by
              have hx := (stripNode_fields (nodeUp_strip hab)).1
              dsimp only
              rw [hx]) _ _ ht12.2
          rcases hrel with ⟨hc1, -⟩ | ⟨a1, b1, ha1, hb1, hab1⟩
          · rw [show List.find? (fun k => k.nodeid == get_nodeid n) t1.nodes =
                lookupNode t1 (get_nodeid n) from rfl, hn1l] at hc1
            exact Option.noConfusion hc1
          rw [show List.find? (fun k => k.nodeid == get_nodeid n) t1.nodes =
              lookupNode t1 (get_nodeid n) from rfl, hn1l] at ha1
          injection ha1 with ha1'
          subst ha1'
          have hb1' : lookupNode t₂ (get_nodeid n) = some b1 := hb1
          have hb1exp : b1.expandable = true := by
            rw [(stripNode_fields (nodeUp_strip hab1)).2.2.2.2.1]
            exact hn1exp
          have hb1open : b1.expanded = true := nodeUp_expanded hab1 hn1open
          have hb1id : b1.nodeid = get_nodeid n := (lookupNode_mem hb1').2
          have hnb1 : nodeUp n b1 := nodeUp_trans hab0 hab1
          -- the rerun's expand phase is a no-op returning True
          have hx2 : expand_node t₂ (get_nodeid n) = (.ok true, t₂) :=
            expand_node_of_expanded hb1' hb1exp hb1open
          have hrb1 : refreshOpt t₂ (some n) = some b1 := by
            unfold refreshOpt refreshN
            dsimp only [Option.map]
            have hb1x : lookupNode t₂ n.nodeid = some b1 := hb1'
            rw [hb1x]
            rfl
          rw [hrb1]
          simp only [expandSteps]
          unfold expandCurrent
          dsimp only
          rw [show get_nodeid b1 = get_nodeid n from hb1id, hx2]
          dsimp only
          obtain ⟨b, hfb, hcb, hlb⟩ := children_up_find ht12 hu2
            (Or.inr ⟨n, b1, rfl, rfl, hb1id.symm,
              ((stripNode_fields (nodeUp_strip hnb1)).2.2.2.1).symm⟩)
            step.matcher step.image hf
          rw [hfb]
          dsimp only
          have hrb : refreshOpt t₂ (some c) = some b := by
            unfold refreshOpt refreshN
            dsimp only [Option.map]
            rw [hlb]
            rfl
          rw [hrb] at hre
          exact ⟨hre, hcur₂⟩

/-- Root-level items correspond under a monotone expansion update. -/
theorem root_items_up {t u : TreeView} (htu : treeUp t u) :
    List.Forall₂ nodeUp (root_items t) (root_items u) := by
  unfold root_items
  exact filter_forall₂_rel
    (fun a b hab => by
      have hx := (stripNode_fields (nodeUp_strip hab)).2.2.2.1
      rw [hx]) htu.2

theorem root_item_count_up {t u : TreeView} (htu : treeUp t u) :
    root_item_count t = root_item_count u := by
  unfold root_item_count
  exact (root_items_up htu).length_eq

theorem forall₂_head_corr {l m : List TNode} (h : List.Forall₂ nodeUp l m) :
    (l.head? = none ∧ m.head? = none) ∨
      ∃ a b, l.head? = some a ∧ m.head? = some b ∧ nodeUp a b ∧ b ∈ m := by
  cases h with
  | nil => exact Or.inl ⟨rfl, rfl⟩
  | cons hab htail => exact Or.inr ⟨_, _, rfl, rfl, hab, List.mem_cons_self _ _⟩

/-- The singular root item corresponds under a monotone expansion update. -/
theorem root_item_up {t u : TreeView} (htu : treeUp t u) :
    (root_item t = none ∧ root_item u = none) ∨
      ∃ a b, root_item t = some a ∧ root_item u = some b ∧ nodeUp a b ∧
        b ∈ u.nodes := by
  unfold root_item
  rw [← root_item_count_up htu]
  by_cases hc : root_item_count t = 1
  · rw [if_pos hc, if_pos hc]
    rcases forall₂_head_corr htu.2 with ⟨h1, h2⟩ | ⟨a, b, h1, h2, hab, hbm⟩
    · exact Or.inl ⟨h1, h2⟩
    · exact Or.inr ⟨a, b, h1, h2, hab, hbm⟩
  · rw [if_neg hc, if_neg hc]
    exact Or.inl ⟨rfl, rfl⟩

/-- Re-running a successful `expand_path` on its own final tree is a no-op
returning the same leaf, and that leaf is the element its nodeid locates in
the final tree. -/
theorem expand_path_rerun {t : TreeView} {path : List Step} {l : Option TNode}
    {t₂ : TreeView} (hu : UniqueIds t)
    (h : expand_path t path = (.ok l, t₂)) :
    expand_path t₂ path = (.ok l, t₂) ∧ NodeCur t₂ l := by
  unfold expand_path at h ⊢
  cases hr : root_item t with
  | none =>
    rw [hr] at h
    dsimp only at h
    have ht2 : treeUp t t₂ := by
      have hT := expandSteps_treeUp path t none (pretty_path path) [] hu
      rw [h] at hT
      exact hT
    rcases root_item_up ht2 with ⟨h1, h2⟩ | ⟨a, b, h1, h2, hab, hbm⟩
    · rw [h2]
      exact expandSteps_rerun path t none (pretty_path path) [] l t₂ hu
        (fun n hn => Option.noConfusion hn) h
    · rw [hr] at h1
      exact Option.noConfusion h1
  | some rootN =>
    rw [hr] at h
    dsimp only at h
    cases path with
    | nil =>
      dsimp only at h
      injection h with hA hB
      exact Except.noConfusion hA
    | cons step rest =>
      dsimp only at h
      by_cases hv : validate_node rootN step.matcher step.image = true
      case neg =>
        rw [if_neg hv] at h
        injection h with hA hB
        exact Except.noConfusion hA
      rw [if_pos hv] at h
      have ht2 : treeUp t t₂ := by
        have hT := expandSteps_treeUp rest t (some rootN) (pretty_path rest)
          [step] hu
        rw [h] at hT
        exact hT
      have hmem : rootN ∈ t.nodes := by
        unfold root_item at hr
        by_cases hc : root_item_count t = 1
        · rw [if_pos hc] at hr
          cases hnodes : t.nodes with
          | nil =>
            rw [hnodes] at hr
            exact Option.noConfusion hr
          | cons x xs =>
            rw [hnodes, List.head?_cons] at hr
            injection hr with hr'
            rw [← hr']
            exact List.mem_cons_self _ _
        · rw [if_neg hc] at hr
          exact Option.noConfusion hr
      have hcur : NodeCur t (some rootN) := by
        intro n hn
        injection hn with hn'
        subst hn'
        exact unique_mem_lookup hu hmem
      have hmain := expandSteps_rerun rest t (some rootN) (pretty_path rest)
        [step] l t₂ hu hcur h
      rcases root_item_up ht2 with ⟨h1, -⟩ | ⟨a, b, h1, h2, hab, hbm⟩
      · rw [hr] at h1
        exact Option.noConfusion h1
      rw [hr] at h1
      injection h1 with h1'
      subst h1'
      rw [h2]
      dsimp only
      rw [if_pos (by rw [← validate_node_nodeUp hab]; exact hv)]
      have hrb : refreshOpt t₂ (some rootN) = some b := by
        unfold refreshOpt refreshN
        dsimp only [Option.map]
        have hbl : lookupNode t₂ rootN.nodeid = some b := by
          have hlb := unique_mem_lookup (treeUp_uniqueIds ht2 hu) hbm
          rw [(stripNode_fields (nodeUp_strip hab)).1] at hlb
          exact hlb
        rw [hbl]
        rfl
      rw [hrb] at hmain
      exact hmain

/-! ## Checkbox clicks do not disturb path resolution

Clicking one node's checkbox (`setChecked`) changes only that node's
`checked` field, which no query or matcher of `expand_path` reads; the whole
resolution therefore commutes with the click. -/

/-- The per-node effect of `setChecked`. -/
def applyChk (q : Str) (b : Bool) (n : TNode) : TNode :=
  if n.nodeid == q then { n with checked := b } else n

theorem setChecked_eq (t : TreeView) (q : Str) (b : Bool) :
    setChecked t q b = { t with nodes := t.nodes.map (applyChk q b) } := rfl

theorem applyChk_fields (q : Str) (b : Bool) (n : TNode) :
    (applyChk q b n).nodeid = n.nodeid ∧ (applyChk q b n).text = n.text ∧
    (applyChk q b n).title = n.title ∧ (applyChk q b n).indents = n.indents ∧
    (applyChk q b n).expandable = n.expandable ∧
    (applyChk q b n).expanded = n.expanded ∧
    (applyChk q b n).image = n.image ∧
    (applyChk q b n).checkable = n.checkable ∧
    (applyChk q b n).willExpand = n.willExpand ∧
    (applyChk q b n).willCollapse = n.willCollapse := by
  unfold applyChk
  split <;> exact ⟨rfl, rfl, rfl, rfl, rfl, rfl, rfl, rfl, rfl, rfl⟩

theorem lookupNode_setChecked (t : TreeView) (q : Str) (b : Bool) (nid : Str) :
    lookupNode (setChecked t q b) nid = (lookupNode t nid).map (applyChk q b) := by
  unfold lookupNode
  rw [setChecked_eq]
  dsimp only
  rw [List.find?_map]
  have hp : ((fun n : TNode => n.nodeid == nid) ∘ applyChk q b) =
      (fun n : TNode => n.nodeid == nid) := by
    funext n
    dsimp only [Function.comp]
    rw [(applyChk_fields q b n).1]
  rw [hp]

theorem root_items_setChecked (t : TreeView) (q : Str) (b : Bool) :
    root_items (setChecked t q b) = (root_items t).map (applyChk q b) := by
  unfold root_items
  rw [setChecked_eq]
  dsimp only
  rw [List.filter_map]
  have hp : ((fun n : TNode => n.indents == 0) ∘ applyChk q b) =
      (fun n : TNode => n.indents == 0) := by
    funext n
    dsimp only [Function.comp]
    rw [(applyChk_fields q b n).2.2.2.1]
  rw [hp]

theorem root_item_count_setChecked (t : TreeView) (q : Str) (b : Bool) :
    root_item_count (setChecked t q b) = root_item_count t := by
  unfold root_item_count
  rw [root_items_setChecked, List.length_map]

theorem root_item_setChecked (t : TreeView) (q : Str) (b : Bool) :
    root_item (setChecked t q b) = (root_item t).map (applyChk q b) := by
  unfold root_item
  rw [root_item_count_setChecked]
  by_cases hc : root_item_count t = 1
  · rw [if_pos hc, if_pos hc, setChecked_eq]
    dsimp only
    rw [List.head?_map]
  · rw [if_neg hc, if_neg hc]
    rfl

theorem childNodes_setChecked (t : TreeView) (q : Str) (b : Bool)
    (nid : Str) (ind : Nat) :
    childNodes (setChecked t q b) nid ind = (childNodes t nid ind).map (applyChk q b) := by
  unfold childNodes
  rw [setChecked_eq]
  dsimp only
  rw [List.filter_map]
  have hp : ((fun n : TNode =>
        strStarts nid n.nodeid && !(n.nodeid == nid) && n.indents == ind + 1) ∘
        applyChk q b) =
      (fun n : TNode =>
        strStarts nid n.nodeid && !(n.nodeid == nid) && n.indents == ind + 1) := by
    funext n
    dsimp only [Function.comp]
    rw [(applyChk_fields q b n).1, (applyChk_fields q b n).2.2.2.1]
  rw [hp]

theorem child_items_setChecked (t : TreeView) (q : Str) (b : Bool)
    (item : Option TNode) :
    child_items (setChecked t q b) (item.map (applyChk q b)) =
      (child_items t item).map (applyChk q b) := by
  unfold child_items
  cases item with
  | none => exact root_items_setChecked t q b
  | some n =>
    dsimp only [Option.map]
    rw [show get_nodeid (applyChk q b n) = get_nodeid n from (applyChk_fields q b n).1,
      show indents (applyChk q b n) = indents n from (applyChk_fields q b n).2.2.2.1]
    exact childNodes_setChecked t q b (get_nodeid n) (indents n)

theorem child_items_with_text_setChecked (t : TreeView) (q : Str) (b : Bool)
    (item : Option TNode) (s : Str) :
    child_items_with_text (setChecked t q b) (item.map (applyChk q b)) s =
      (child_items_with_text t item s).map (applyChk q b) := by
  unfold child_items_with_text
  cases item with
  | none =>
    dsimp only [Option.map]
    rw [root_items_setChecked, List.filter_map]
    have hp : ((fun c : TNode => substrB s c.text) ∘ applyChk q b) =
        (fun c : TNode => substrB s c.text) := by
      funext n
      dsimp only [Function.comp]
      rw [(applyChk_fields q b n).2.1]
    rw [hp]
  | some n =>
    dsimp only [Option.map]
    rw [show get_nodeid (applyChk q b n) = get_nodeid n from (applyChk_fields q b n).1,
      show indents (applyChk q b n) = indents n from (applyChk_fields q b n).2.2.2.1,
      childNodes_setChecked, List.filter_map]
    have hp : ((fun c : TNode => substrB s c.title || substrB s c.text) ∘
        applyChk q b) =
        (fun c : TNode => substrB s c.title || substrB s c.text) := by
      funext c
      dsimp only [Function.comp]
      rw [(applyChk_fields q b c).2.1, (applyChk_fields q b c).2.2.1]
    rw [hp]

theorem validate_node_applyChk (q : Str) (b : Bool) (c : TNode) (m : Matcher)
    (img : Option Str) :
    validate_node (applyChk q b c) m img = validate_node c m img := by
  unfold validate_node image_getter
  rw [(applyChk_fields q b c).2.1, (applyChk_fields q b c).2.2.2.2.2.2.1]

theorem get_item_by_nodeid_setChecked (t : TreeView) (q : Str) (b : Bool)
    (nid : Str) :
    get_item_by_nodeid (setChecked t q b) nid =
      (get_item_by_nodeid t nid).map (applyChk q b) := by
  unfold get_item_by_nodeid
  rw [lookupNode_setChecked]
  cases lookupNode t nid with
  | none => rfl
  | some n => rfl

theorem setExpanded_setChecked_comm (t : TreeView) (nid : Str) (e : Bool)
    (q : Str) (b : Bool) :
    setExpanded (setChecked t q b) nid e = setChecked (setExpanded t nid e) q b := by
  unfold setExpanded setChecked
  dsimp only
  rw [List.map_map, List.map_map]
  congr 1
  apply List.map_congr_left
  intro n _
  dsimp only [Function.comp]
  by_cases h1 : (n.nodeid == nid) = true <;>
    by_cases h2 : (n.nodeid == q) = true <;>
      simp [h1, h2]

theorem expand_node_setChecked (t : TreeView) (q : Str) (b : Bool) (nid : Str)
    {r : Except WErr Bool} {tx : TreeView} (hx : expand_node t nid = (r, tx)) :
    expand_node (setChecked t q b) nid = (r, setChecked tx q b) := by
  unfold expand_node at hx ⊢
  rw [get_item_by_nodeid_setChecked]
  cases hg : get_item_by_nodeid t nid with
  | error e =>
    rw [hg] at hx
    dsimp only at hx
    dsimp only [Except.map]
    injection hx with h1 h2
    rw [h1, h2]
  | ok node =>
    rw [hg] at hx
    dsimp only at hx
    dsimp only [Except.map]
    rw [show is_expandable (applyChk q b node) = is_expandable node from
        (applyChk_fields q b node).2.2.2.2.1,
      show is_collapsed (applyChk q b node) = is_collapsed node from by
        unfold is_collapsed is_expanded
        rw [(applyChk_fields q b node).2.2.2.2.2.1],
      show (applyChk q b node).willExpand = node.willExpand from
        (applyChk_fields q b node).2.2.2.2.2.2.2.2.1]
    by_cases hexp : is_expandable node = true
    case neg =>
      have hn : ((!is_expandable node) = true) := by simp [hexp]
      rw [if_pos hn] at hx ⊢
      injection hx with h1 h2
      rw [h1, h2]
    have hn : ¬((!is_expandable node) = true) := by simp [hexp]
    rw [if_neg hn] at hx ⊢
    by_cases hcol : is_collapsed node = true
    case neg =>
      rw [if_neg hcol] at hx ⊢
      injection hx with h1 h2
      rw [h1, h2]
    rw [if_pos hcol] at hx ⊢
    rw [setExpanded_setChecked_comm, get_item_by_nodeid_setChecked]
    cases hg1 : get_item_by_nodeid (setExpanded t nid node.willExpand) nid with
    | error e1 =>
      rw [hg1] at hx
      dsimp only at hx
      dsimp only [Except.map]
      injection hx with h1 h2
      rw [h1, h2]
    | ok n1 =>
      rw [hg1] at hx
      dsimp only at hx
      dsimp only [Except.map]
      rw [show is_expanded (applyChk q b n1) = is_expanded n1 from by
        unfold is_expanded
        rw [(applyChk_fields q b n1).2.2.2.2.2.1]]
      by_cases hxx : is_expanded n1 = true
      · rw [if_pos hxx] at hx ⊢
        injection hx with h1 h2
        rw [h1, h2]
      · rw [if_neg hxx] at hx ⊢
        injection hx with h1 h2
        rw [h1, h2]

theorem expandCurrent_setChecked (t : TreeView) (q : Str) (b : Bool)
    (node : Option TNode) (step : Step) (pathRepr : Str) (tried : List Step)
    {r : Except WErr Unit} {tx : TreeView}
    (hE : expandCurrent t node step pathRepr tried = (r, tx)) :
    expandCurrent (setChecked t q b) (node.map (applyChk q b)) step pathRepr tried =
      (r, setChecked tx q b) := by
  unfold expandCurrent at hE ⊢
  cases node with
  | none =>
    dsimp only [Option.map] at hE ⊢
    injection hE with h1 h2
    rw [h1, h2]
  | some n =>
    dsimp only [Option.map] at hE ⊢
    rw [show get_nodeid (applyChk q b n) = get_nodeid n from (applyChk_fields q b n).1]
    rcases hx : expand_node t (get_nodeid n) with ⟨rx, txx⟩
    rw [hx] at hE
    rw [expand_node_setChecked t q b (get_nodeid n) hx]
    cases rx with
    | error e =>
      dsimp only at hE ⊢
      injection hE with h1 h2
      rw [h1, h2]
    | ok bb =>
      cases bb with
      | true =>
        dsimp only at hE ⊢
        injection hE with h1 h2
        rw [h1, h2]
      | false =>
        dsimp only at hE ⊢
        rw [show (setChecked txx q b).treeId = txx.treeId from rfl]
        injection hE with h1 h2
        rw [h1, h2]

theorem expandSteps_setChecked (rest : List Step) :
    ∀ (t : TreeView) (q : Str) (b : Bool) (node : Option TNode) (pathRepr : Str)
      (tried : List Step) (r : Except WErr (Option TNode)) (tx : TreeView),
      expandSteps t node rest pathRepr tried = (r, tx) →
      expandSteps (setChecked t q b) (node.map (applyChk q b)) rest pathRepr tried =
        (Except.map (Option.map (applyChk q b)) r, setChecked tx q b) := by
  induction rest with
  | nil =>
    intro t q b node pathRepr tried r tx h
    simp only [expandSteps] at h ⊢
    injection h with h1 h2
    rw [← h1, ← h2]
    dsimp only [Except.map]
  | cons step rs ih =>
    intro t q b node pathRepr tried r tx h
    simp only [expandSteps] at h ⊢
    rcases hE : expandCurrent t node step pathRepr (tried ++ [step]) with ⟨r0, t1⟩
    rw [hE] at h
    rw [expandCurrent_setChecked t q b node step pathRepr (tried ++ [step]) hE]
    cases r0 with
    | error e =>
      dsimp only at h ⊢
      injection h with h1 h2
      rw [← h1, ← h2]
      dsimp only [Except.map]
    | ok u =>
      dsimp only at h ⊢
      cases hm : step.matcher with
      | lit s =>
        rw [hm] at h
        dsimp only at h ⊢
        rw [child_items_with_text_setChecked, List.find?_map]
        have hpp : ((fun c => validate_node c (Matcher.lit s) step.image) ∘
            applyChk q b) =
            (fun c => validate_node c (Matcher.lit s) step.image) := by
          funext c
          dsimp only [Function.comp]
          rw [validate_node_applyChk]
        rw [hpp]
        cases hf : (child_items_with_text t1 node s).find?
            (fun c => validate_node c (Matcher.lit s) step.image) with
        | some c =>
          rw [hf] at h
          dsimp only at h
          dsimp only [Option.map]
          exact ih t1 q b (some c) pathRepr (tried ++ [step]) r tx h
        | none =>
          rw [hf] at h
          dsimp only at h
          dsimp only [Option.map]
          cases hg : tried.getLast? with
          | some prev =>
            rw [hg] at h
            dsimp only at h
            rw [show (setChecked t1 q b).treeId = t1.treeId from rfl]
            injection h with h1 h2
            rw [← h1, ← h2]
            dsimp only [Except.map]
          | none =>
            rw [hg] at h
            dsimp only at h
            injection h with h1 h2
            rw [← h1, ← h2]
            dsimp only [Except.map]
      | regex p =>
        rw [hm] at h
        dsimp only at h ⊢
        rw [child_items_setChecked, List.find?_map]
        have hpp : ((fun c => validate_node c (Matcher.regex p) step.image) ∘
            applyChk q b) =
            (fun c => validate_node c (Matcher.regex p) step.image) := by
          funext c
          dsimp only [Function.comp]
          rw [validate_node_applyChk]
        rw [hpp]
        cases hf : (child_items t1 node).find?
            (fun c => validate_node c (Matcher.regex p) step.image) with
        | some c =>
          rw [hf] at h
          dsimp only at h
          dsimp only [Option.map]
          exact ih t1 q b (some c) pathRepr (tried ++ [step]) r tx h
        | none =>
          rw [hf] at h
          dsimp only at h
          dsimp only [Option.map]
          cases hg : tried.getLast? with
          | some prev =>
            rw [hg] at h
            dsimp only at h
            rw [show (setChecked t1 q b).treeId = t1.treeId from rfl]
            injection h with h1 h2
            rw [← h1, ← h2]
            dsimp only [Except.map]
          | none =>
            rw [hg] at h
            dsimp only at h
            injection h with h1 h2
            rw [← h1, ← h2]
            dsimp only [Except.map]

theorem expand_path_setChecked (t : TreeView) (q : Str) (b : Bool)
    (path : List Step) {r : Except WErr (Option TNode)} {tx : TreeView}
    (h : expand_path t path = (r, tx)) :
    expand_path (setChecked t q b) path =
      (Except.map (Option.map (applyChk q b)) r, setChecked tx q b) := by
  unfold expand_path at h ⊢
  rw [root_item_setChecked]
  cases hr : root_item t with
  | none =>
    rw [hr] at h
    dsimp only [Option.map]
    exact expandSteps_setChecked path t q b none (pretty_path path) [] r tx h
  | some rootN =>
    rw [hr] at h
    dsimp only [Option.map]
    cases path with
    | nil =>
      dsimp only at h ⊢
      injection h with h1 h2
      rw [← h1, ← h2]
      dsimp only [Except.map]
    | cons step rest =>
      dsimp only at h ⊢
      rw [validate_node_applyChk]
      by_cases hv : validate_node rootN step.matcher step.image = true
      · rw [if_pos hv] at h ⊢
        exact expandSteps_setChecked rest t q b (some rootN) (pretty_path rest)
          [step] r tx h
      · rw [if_neg hv] at h ⊢
        rw [show (setChecked t q b).treeId = t.treeId from rfl]
        injection h with h1 h2
        rw [← h1, ← h2]
        dsimp only [Except.map]

/-- Clicking a node's own checkbox sets exactly its `checked` field. -/
theorem applyChk_self (leaf : TNode) (b : Bool) :
    applyChk (get_nodeid leaf) b leaf = { leaf with checked := b } := by
  unfold applyChk
  rw [if_pos (by simp [get_nodeid])]

/-- Single checkable, initially checked root node. -/
def leafT8 : TNode :=
  { mkN "1" "P" 0 false false with checkable := true, checked := true }

def exT8 : TreeView := ⟨"t8".data, [leafT8]⟩

/-- **C8**: for every path whose leaf is checkable, `check_uncheck_node`
clicks the checkbox only when the leaf's checked state differs from the
requested one and reports `True` exactly when a change occurred; in
particular, on an already-checked leaf `check_node` is a no-op returning
`False`, `uncheck_node` run next (on the expanded tree the first call left
behind) returns `True` and unchecks exactly that node, and `node_checked`
on the same path afterwards returns `False`. -/
theorem c8_check_toggle_roundtrip (t : TreeView) (path : List Step)
    (leaf : TNode) (t' : TreeView) (hu : UniqueIds t)
    (hp : expand_path t path = (.ok (some leaf), t'))
    (hck : is_checkable leaf = true) :
    (∀ ck : Bool, check_uncheck_node t ck path =
      if is_checked leaf != ck
      then (.ok true, setChecked t' (get_nodeid leaf) (!is_checked leaf))
      else (.ok false, t')) ∧
    (is_checked leaf = true →
      check_node t path = (.ok false, t') ∧
      uncheck_node t' path = (.ok true, setChecked t' (get_nodeid leaf) false) ∧
      node_checked (setChecked t' (get_nodeid leaf) false) path =
        (.ok false, setChecked t' (get_nodeid leaf) false)) := by
  obtain ⟨hre, -⟩ := expand_path_rerun hu hp
  constructor
  · intro ck
    unfold check_uncheck_node
    rw [hp]
    dsimp only
    rw [if_neg (by simp [hck])]
  · intro hcd
    refine ⟨?_, ?_, ?_⟩
    · unfold check_node check_uncheck_node
      rw [hp]
      dsimp only
      rw [if_neg (by simp [hck]), if_neg (by simp [hcd])]
    · unfold uncheck_node check_uncheck_node
      rw [hre]
      dsimp only
      rw [if_neg (by simp [hck]), hcd, if_pos (by decide)]
      rfl
    · have hfr := expand_path_setChecked t' (get_nodeid leaf) false path hre
      unfold node_checked
      rw [hfr]
      dsimp only [Except.map, Option.map]
      rw [applyChk_self]
      rw [if_neg (by simp [is_checkable]; exact hck)]
      rfl

/-- Witness for C8 on the concrete one-node checked tree `exT8`. -/
theorem c8_check_toggle_roundtrip_witness :
    UniqueIds exT8 ∧
    expand_path exT8 [stepL "P"] = (.ok (some leafT8), exT8) ∧
    is_checkable leafT8 = true ∧ is_checked leafT8 = true ∧
    check_node exT8 [stepL "P"] = (.ok false, exT8) ∧
    uncheck_node exT8 [stepL "P"] =
      (.ok true, setChecked exT8 (get_nodeid leafT8) false) ∧
    node_checked (setChecked exT8 (get_nodeid leafT8) false) [stepL "P"] =
      (.ok false, setChecked exT8 (get_nodeid leafT8) false) := by
  have hu : UniqueIds exT8 := by
    unfold UniqueIds
    decide
  have hp : expand_path exT8 [stepL "P"] = (.ok (some leafT8), exT8) := by decide
  have h := (c8_check_toggle_roundtrip exT8 [stepL "P"] leafT8 exT8 hu hp
    (by decide)).2 (by decide)
  exact ⟨hu, hp, by decide, by decide, h.1, h.2.1, h.2.2⟩
